import Mathlib

/-!
Verification development for the Agent-AI FastAPI backend
(`src/Agent-AI/src/app/main.py` and its helpers).

The streaming translation layer of `main.py` is embedded shallowly:

* `create_sse_data` — the SSE frame encoder (main.py:324).
* `process_stream_updates` — the per-event translator for the
  state-update ("updates") channel (main.py:342), modelled by
  `processInterrupts` / `processMessages` / `processStreamUpdates`.
* `message_generator` — the stream driver (main.py:484), modelled by
  `updatesFold`, `runEvents` and `messageGenerator`.
* `invoke` — the single-shot handler (main.py:186), modelled by `invokePost`.
* the module-level `InMemorySaver` checkpointer of
  `src/agents/Agent_AI/Agent_AI.py`, modelled by `GenContext`-style maps.

Python values are mapped as follows: JSON-serializable values become the
inductive `Json` (numbers restricted to integers, which covers every value the
translation layer constructs), `json.dumps` with its default separators
becomes `jsonDumps`, Python dictionaries used as trackers become
insertion-ordered association lists, exceptions become `Option String`
results carrying the text of `str(e)`, and asynchronous generators become
functions from the list of source events to the list of yielded values.
-/

set_option autoImplicit false

namespace AgentAI

/-- JSON values, as produced by the translation layer.  Python `None` at the
top level of an SSE `content` field is modelled by `Option Json` instead of a
`Json.null` leaf, mirroring the `content is not None` test in
`create_sse_data`; nested nulls use `Json.null`. -/
inductive Json where
  | null : Json
  | bool (b : Bool) : Json
  | num (n : Int) : Json
  | str (s : String) : Json
  | arr (items : List Json) : Json
  | obj (fields : List (String × Json)) : Json

mutual

/-- Boolean structural equality on `Json` (the nested inductive prevents a
derived instance). -/
def beqJson : Json → Json → Bool
  | .null, .null => true
  | .bool a, .bool b => a == b
  | .num a, .num b => a == b
  | .str a, .str b => a == b
  | .arr a, .arr b => beqJsonList a b
  | .obj a, .obj b => beqJsonFields a b
  | _, _ => false

/-- Boolean equality on lists of `Json`. -/
def beqJsonList : List Json → List Json → Bool
  | [], [] => true
  | a :: as, b :: bs => beqJson a b && beqJsonList as bs
  | _, _ => false

/-- Boolean equality on JSON object field lists. -/
def beqJsonFields : List (String × Json) → List (String × Json) → Bool
  | [], [] => true
  | (k, v) :: as, (k2, v2) :: bs => k == k2 && beqJson v v2 && beqJsonFields as bs
  | _, _ => false

end

mutual

theorem beqJson_refl : ∀ a, beqJson a a = true
  | .null => rfl
  | .bool a => by simp [beqJson]
  | .num a => by simp [beqJson]
  | .str a => by simp [beqJson]
  | .arr a => by simpa [beqJson] using beqJsonList_refl a
  | .obj a => by simpa [beqJson] using beqJsonFields_refl a

theorem beqJsonList_refl : ∀ a, beqJsonList a a = true
  | [] => rfl
  | a :: as => by
      simp only [beqJsonList, Bool.and_eq_true]
      exact ⟨beqJson_refl a, beqJsonList_refl as⟩

theorem beqJsonFields_refl : ∀ a, beqJsonFields a a = true
  | [] => rfl
  | (k, v) :: as => by
      simp only [beqJsonFields, Bool.and_eq_true, beq_self_eq_true, true_and]
      exact ⟨beqJson_refl v, beqJsonFields_refl as⟩

end

mutual

theorem eq_of_beqJson : ∀ a b, beqJson a b = true → a = b
  | .null, .null, _ => rfl
  | .bool a, .bool b, h => by simp [beqJson] at h; simp [h]
  | .num a, .num b, h => by simp [beqJson] at h; simp [h]
  | .str a, .str b, h => by simp [beqJson] at h; simp [h]
  | .arr a, .arr b, h => by
      rw [eq_of_beqJsonList a b (by simpa [beqJson] using h)]
  | .obj a, .obj b, h => by
      rw [eq_of_beqJsonFields a b (by simpa [beqJson] using h)]

theorem eq_of_beqJsonList : ∀ a b, beqJsonList a b = true → a = b
  | [], [], _ => rfl
  | a :: as, b :: bs, h => by
      simp only [beqJsonList, Bool.and_eq_true] at h
      rw [eq_of_beqJson a b h.1, eq_of_beqJsonList as bs h.2]

theorem eq_of_beqJsonFields : ∀ a b, beqJsonFields a b = true → a = b
  | [], [], _ => rfl
  | (k, v) :: as, (k2, v2) :: bs, h => by
      simp only [beqJsonFields, Bool.and_eq_true, beq_iff_eq] at h
      rw [h.1.1, eq_of_beqJson v v2 h.1.2, eq_of_beqJsonFields as bs h.2]

end

instance : BEq Json := ⟨beqJson⟩

instance : LawfulBEq Json where
  eq_of_beq h := eq_of_beqJson _ _ h
  rfl := beqJson_refl _

instance : DecidableEq Json := fun a b =>
  decidable_of_iff (beqJson a b = true) ⟨eq_of_beqJson a b, fun h => h ▸ beqJson_refl a⟩

/-- Hexadecimal digit character, lower case, as used by Python string
escaping. -/
def hexDigitCh (n : Nat) : Char :=
  if n < 10 then Char.ofNat (48 + n) else Char.ofNat (87 + (n - 10))

/-- Four-digit hexadecimal rendering of a code point for a JSON
`\uXXXX` escape. -/
def hex4 (n : Nat) : String :=
  String.mk [hexDigitCh (n / 4096 % 16), hexDigitCh (n / 256 % 16),
    hexDigitCh (n / 16 % 16), hexDigitCh (n % 16)]

/-- Escape one character the way `json.dumps` (with its default
`ensure_ascii=True`) escapes characters inside a JSON string literal. -/
def escChar (c : Char) : String :=
  if c = '"' then "\\\""
  else if c = '\\' then "\\\\"
  else if c = '\n' then "\\n"
  else if c = '\r' then "\\r"
  else if c = '\t' then "\\t"
  else if c.toNat < 32 ∨ c.toNat > 126 then "\\u" ++ hex4 c.toNat
  else String.singleton c

/-- Escape the body of a JSON string literal (list version, the recursion
`escString` runs on). -/
def escList : List Char → String
  | [] => ""
  | c :: rest => escChar c ++ escList rest

/-- Escape the body of a JSON string literal. -/
def escString (s : String) : String :=
  escList s.data

/-- Decimal digits of a natural number, most significant first. -/
def natDec (n : Nat) : List Char :=
  if _h : n < 10 then [hexDigitCh n]
  else natDec (n / 10) ++ [hexDigitCh (n % 10)]
  decreasing_by exact Nat.div_lt_self (by omega) (by omega)

/-- Decimal rendering of an integer, as Python prints `int` values inside
`json.dumps`. -/
def intDec (i : Int) : String :=
  if i < 0 then "-" ++ String.mk (natDec (-i).toNat)
  else String.mk (natDec i.toNat)

mutual

/-- Lean model of Python `json.dumps` with its default arguments: item
separator `", "`, key separator `": "`, no indent.  This is the exact
serializer used by `create_sse_data` in main.py. -/
def jsonDumps : Json → String
  | .null => "null"
  | .bool true => "true"
  | .bool false => "false"
  | .num n => intDec n
  | .str s => "\"" ++ escString s ++ "\""
  | .arr items => "[" ++ jsonDumpsArr items ++ "]"
  | .obj fields => "\x7b" ++ jsonDumpsObj fields ++ "\x7d"

/-- Comma-joined serialization of a JSON array body. -/
def jsonDumpsArr : List Json → String
  | [] => ""
  | [x] => jsonDumps x
  | x :: y :: rest => jsonDumps x ++ ", " ++ jsonDumpsArr (y :: rest)

/-- Comma-joined serialization of a JSON object body. -/
def jsonDumpsObj : List (String × Json) → String
  | [] => ""
  | [(k, v)] => "\"" ++ escString k ++ "\": " ++ jsonDumps v
  | (k, v) :: kv :: rest =>
      "\"" ++ escString k ++ "\": " ++ jsonDumps v ++ ", " ++ jsonDumpsObj (kv :: rest)

end

/-- One SSE message dictionary, as passed to `create_sse_data`
(main.py:269-321): a `type` string and an optional `content` value. -/
structure SSEMessage where
  type : String
  content : Option Json
  deriving DecidableEq

/-- Embedding of `create_sse_data` (main.py:324-339): an `event:` line, a
`data:` line only when the content is not `None`, then a blank line. -/
def create_sse_data (message : SSEMessage) : String :=
  let result := "event: " ++ message.type ++ "\n"
  let result := match message.content with
    | none => result
    | some content => result ++ "data: " ++ jsonDumps content ++ "\n"
  result ++ "\n"

/-- The `stream_start` message dictionary (content `None`). -/
def streamStartM : SSEMessage := ⟨"stream_start", none⟩

/-- A `stream_token` message dictionary with the given token text. -/
def streamTokenM (tok : String) : SSEMessage :=
  ⟨"stream_token", some (.obj [("token", .str tok)])⟩

/-- A `stream_end` message dictionary carrying the thread identifier. -/
def streamEndM (thread_id : String) : SSEMessage :=
  ⟨"stream_end", some (.obj [("thread_id", .str thread_id)])⟩

/-- A `tool_execution_start` message dictionary. -/
def toolStartM (name : String) (params : Json) : SSEMessage :=
  ⟨"tool_execution_start", some (.obj [("name", .str name), ("params", params)])⟩

/-- A `tool_execution_complete` message dictionary. -/
def toolCompleteM (name : String) (params : Json) : SSEMessage :=
  ⟨"tool_execution_complete", some (.obj [("name", .str name), ("params", params)])⟩

/-- An `error` message dictionary with a string content. -/
def errorM (text : String) : SSEMessage := ⟨"error", some (.str text)⟩

/-! ## LangChain messages and their translation (`src/app/utils.py`) -/

/-- One item of a structured LangChain message content list: either a plain
string, or a dict whose `"type"` key may be absent (`ty = none`) and whose
`"text"` key may be absent (`text = none`). -/
inductive ContentPart where
  | txt (s : String)
  | dict (ty : Option String) (text : Option String)
  deriving DecidableEq

/-- LangChain message content: either a string or a list of parts
(`str | list[str | dict]` in utils.py). -/
inductive MsgContent where
  | s (text : String)
  | parts (items : List ContentPart)
  deriving DecidableEq

/-- Python truthiness of a message content value (`if content:`). -/
def MsgContent.truthy : MsgContent → Bool
  | .s text => text ≠ ""
  | .parts items => items ≠ []

/-- Embedding of `convert_message_content_to_string` (utils.py): a string is
returned unchanged; in a list, plain strings are kept and dict items
contribute their `"text"` value (default `""`) when their `"type"` is
`"text"`, and nothing otherwise. -/
def convert_message_content_to_string : MsgContent → String
  | .s text => text
  | .parts items =>
      String.join (items.map fun item =>
        match item with
        | .txt s => s
        | .dict ty text => if ty = some "text" then text.getD "" else "")

/-- Embedding of `remove_tool_calls` (utils.py): strings pass through; in a
list, items are kept when they are plain strings or dicts whose `"type"` is
not `"tool_use"`.  A dict item with no `"type"` key raises `KeyError`
(`content_item["type"]`), modelled by the error result carrying
`str(KeyError("type"))`. -/
def remove_tool_calls : MsgContent → Except String MsgContent
  | .s text => .ok (.s text)
  | .parts items =>
      if items.all fun item =>
          match item with
          | .txt _ => true
          | .dict ty _ => ty.isSome
      then .ok (.parts (items.filter fun item =>
          match item with
          | .txt _ => true
          | .dict ty _ => ty ≠ some "tool_use"))
      else .error "type"

/-- A LangChain tool call request, as read by main.py
(`tool_call["id"]`, `tool_call["name"]`, `tool_call["args"]`). -/
structure ToolCallReq where
  id : String
  name : String
  args : Json
  deriving DecidableEq

/-- An incoming LangChain message, the argument of
`langchain_to_chat_message`.  The `other` constructor stands for any message
class that is not `HumanMessage`/`AIMessage`/`ToolMessage` and makes the
translation raise `MessageConversionError`. -/
inductive LCMessage where
  | human (content : MsgContent)
  | ai (content : MsgContent) (tool_calls : List ToolCallReq)
  | tool (content : MsgContent) (tool_call_id : String)
  | other (clsName : String)
  deriving DecidableEq

/-- The `ChatMessage` pydantic model of `src/schema/schema.py`, restricted to
the fields the streaming layer reads (`type`, `content`, `tool_calls`,
`tool_call_id`) and writes (`run_id`, `thread_id`). -/
structure ChatMessage where
  type : String
  content : String
  tool_calls : List ToolCallReq := []
  tool_call_id : Option String := none
  run_id : Option String := none
  thread_id : Option String := none
  deriving DecidableEq

/-- Embedding of `langchain_to_chat_message` (utils.py): human, AI and tool
messages are converted field by field; any other message class raises
`MessageConversionError`, modelled by the error result carrying the
exception text. -/
def langchain_to_chat_message : LCMessage → Except String ChatMessage
  | .human content =>
      .ok { type := "human", content := convert_message_content_to_string content }
  | .ai content tool_calls =>
      .ok { type := "ai", content := convert_message_content_to_string content,
            tool_calls := tool_calls }
  | .tool content tool_call_id =>
      .ok { type := "tool", content := convert_message_content_to_string content,
            tool_call_id := some tool_call_id }
  | .other clsName => .error ("Unsupported message type: " ++ clsName)

/-! ## The tool-call tracker (the `tool_executions` dict of main.py) -/

/-- The value stored per call id: `{"name": ..., "params": ...}`
(main.py:398-401). -/
structure ToolInfo where
  name : String
  params : Json
  deriving DecidableEq

/-- The `tool_executions` Python dict: an insertion-ordered association list
from call id to `ToolInfo`. -/
abbrev ToolExec := List (String × ToolInfo)

/-- `tool_executions[k] = v`: replace in place when the key is present
(last-write-wins), append otherwise. -/
def teInsert (te : ToolExec) (k : String) (v : ToolInfo) : ToolExec :=
  match te with
  | [] => [(k, v)]
  | (k2, v2) :: rest =>
      if k2 = k then (k, v) :: rest else (k2, v2) :: teInsert rest k v

/-- `k in tool_executions` / `tool_executions[k]`. -/
def teLookup (te : ToolExec) (k : String) : Option ToolInfo :=
  match te with
  | [] => none
  | (k2, v2) :: rest => if k2 = k then some v2 else teLookup rest k

/-- `tool_executions.pop(k)` (the removal part; the returned value is
`teLookup`). -/
def teRemove (te : ToolExec) (k : String) : ToolExec :=
  match te with
  | [] => []
  | (k2, v2) :: rest => if k2 = k then rest else (k2, v2) :: teRemove rest k

/-! ## `process_stream_updates` (main.py:342-460) -/

/-- One interrupt object of an `__interrupt__` update; main.py reads its
`content` attribute (main.py:371, 376). -/
structure Interrupt where
  content : String
  deriving DecidableEq

/-- One `(node, updates)` entry of an updates-channel event dict
(main.py:368): either the `"__interrupt__"` key with its interrupt list, or a
regular node whose updates dict yields `updates.get("messages", [])`. -/
inductive UpdateItem where
  | interruptNode (interrupts : List Interrupt)
  | node (name : String) (messages : List LCMessage)
  deriving DecidableEq

/-- State threaded through one call of `process_stream_updates`: the shared
`tool_executions` dict, the shared `completed_tools` list, the call-local
`stream_started` flag, and the call-local `chat_message` variable (`none` as
long as no assignment at main.py:386 has succeeded in this call). -/
structure PSUSt where
  te : ToolExec
  completed : List String
  flag : Bool
  lastChat : Option ChatMessage
  deriving DecidableEq

/-- The `__interrupt__` branch (main.py:369-380): for each interrupt, emit a
`stream_start` pair when the stream has not started and the content is
truthy, then always emit a `stream_token` pair carrying the interrupt
content. -/
def processInterrupts : List Interrupt → Bool → List (SSEMessage × Bool) × Bool
  | [], stream_started => ([], stream_started)
  | i :: rest, stream_started =>
      if ¬stream_started ∧ i.content ≠ "" then
        let r := processInterrupts rest true
        ((streamStartM, true) :: (streamTokenM i.content, true) :: r.1, r.2)
      else
        let r := processInterrupts rest stream_started
        ((streamTokenM i.content, stream_started) :: r.1, r.2)

/-- The tool-call loop (main.py:396-414): store each call in
`tool_executions` and emit a `tool_execution_start` pair, without touching
`stream_started`. -/
def recordCalls (calls : List ToolCallReq) (te : ToolExec) (flag : Bool) :
    List (SSEMessage × Bool) × ToolExec :=
  match calls with
  | [] => ([], te)
  | tc :: rest =>
      let r := recordCalls rest (teInsert te tc.id ⟨tc.name, tc.args⟩) flag
      ((toolStartM tc.name tc.args, flag) :: r.1, r.2)

/-- The message loop of `process_stream_updates` (main.py:384-460), one
Python `for message in update_messages` iteration per list element.  The
result is the yielded `(frame, stream_started)` pairs, the final state, and
`some text` when the iteration itself raised: in the per-message `except`
handler, `hasattr(chat_message, "tool_call_id")` evaluates `chat_message`,
which is unbound when no earlier message of the same call was translated
successfully, so the handler raises and the remaining messages are never
processed (the pre-raise `stream_start` yield at main.py:448-450 still
happened). -/
def processMessages (rid tid uin : String) :
    List LCMessage → PSUSt → List (SSEMessage × Bool) × PSUSt × Option String
  | [], st => ([], st, none)
  | m :: rest, st =>
      match langchain_to_chat_message m with
      | .ok cm0 =>
          let cm : ChatMessage := { cm0 with run_id := some rid, thread_id := some tid }
          let st1 := { st with lastChat := some cm }
          if cm.type = "human" ∧ cm.content = uin then
            processMessages rid tid uin rest st1
          else if cm.tool_calls ≠ [] then
            let rc := recordCalls cm.tool_calls st1.te st1.flag
            let r := processMessages rid tid uin rest { st1 with te := rc.2 }
            (rc.1 ++ r.1, r.2.1, r.2.2)
          else if cm.type = "tool" then
            match cm.tool_call_id with
            | some callId =>
                match teLookup st1.te callId with
                | some info =>
                    let r := processMessages rid tid uin rest
                      { st1 with te := teRemove st1.te callId,
                                 completed := st1.completed ++ [info.name] }
                    ((toolCompleteM info.name info.params, st1.flag) :: r.1, r.2.1, r.2.2)
                | none => processMessages rid tid uin rest st1
            | none => processMessages rid tid uin rest st1
          else
            if cm.content ≠ "" then
              if st1.flag then
                let r := processMessages rid tid uin rest st1
                ((streamTokenM cm.content, st1.flag) :: r.1, r.2.1, r.2.2)
              else
                let r := processMessages rid tid uin rest { st1 with flag := true }
                ((streamStartM, true) :: (streamTokenM cm.content, true) :: r.1, r.2.1, r.2.2)
            else processMessages rid tid uin rest st1
      | .error _ =>
          let pre : List (SSEMessage × Bool) := if st.flag then [] else [(streamStartM, true)]
          let st1 := { st with flag := true }
          match st.lastChat with
          | none =>
              (pre, st1, some "local variable chat_message referenced before assignment")
          | some prev =>
              let te2 := match prev.tool_call_id with
                | some pid =>
                    if (teLookup st1.te pid).isSome then teRemove st1.te pid else st1.te
                | none => st1.te
              let r := processMessages rid tid uin rest { st1 with te := te2 }
              (pre ++ (errorM "Unexpected error", true) :: r.1, r.2.1, r.2.2)

/-- The node loop of `process_stream_updates` (main.py:368): interrupt
entries only touch the flag, other entries run the message loop; a raise in
the message loop propagates and the remaining entries are not processed. -/
def processUpdateItems (rid tid uin : String) :
    List UpdateItem → PSUSt → List (SSEMessage × Bool) × PSUSt × Option String
  | [], st => ([], st, none)
  | .interruptNode ints :: rest, st =>
      let ri := processInterrupts ints st.flag
      let r := processUpdateItems rid tid uin rest { st with flag := ri.2 }
      (ri.1 ++ r.1, r.2.1, r.2.2)
  | .node _ msgs :: rest, st =>
      let rm := processMessages rid tid uin msgs st
      match rm.2.2 with
      | some e => (rm.1, rm.2.1, some e)
      | none =>
          let r := processUpdateItems rid tid uin rest rm.2.1
          (rm.1 ++ r.1, r.2.1, r.2.2)

/-- Embedding of `process_stream_updates` (main.py:342): one call receives
the shared tracker, the caller's `stream_started` and the shared
`completed_tools`, and starts with the call-local `chat_message` unbound. -/
def processStreamUpdates (event : List UpdateItem) (rid tid uin : String)
    (te : ToolExec) (stream_started : Bool) (completed : List String) :
    List (SSEMessage × Bool) × PSUSt × Option String :=
  processUpdateItems rid tid uin event ⟨te, completed, stream_started, none⟩

/-! ## `message_generator` (main.py:484-587) -/

/-- List-of-characters test: does the second list start with the first? -/
def charsHavePre : List Char → List Char → Bool
  | [], _ => true
  | _ :: _, [] => false
  | a :: as, b :: bs => a == b && charsHavePre as bs

/-- List-of-characters substring test. -/
def charsHaveSub (p : List Char) : List Char → Bool
  | [] => charsHavePre p []
  | c :: rest => charsHavePre p (c :: rest) || charsHaveSub p rest

/-- Python `pat in s` on strings. -/
def strContainsSub (s pat : String) : Bool :=
  charsHaveSub pat.data s.data

/-- The forwarding test of the updates branch (main.py:536-539):
`"event: tool_execution_start" in message or "event: tool_execution_complete"
in message`, applied to the rendered SSE text. -/
def sseHasToolSub (m : SSEMessage) : Bool :=
  strContainsSub (create_sse_data m) "event: tool_execution_start" ||
  strContainsSub (create_sse_data m) "event: tool_execution_complete"

/-- The `async for` loop over `process_stream_updates` yields
(main.py:527-544): forward a pair whose rendered text passes
`sseHasToolSub`; otherwise, when its flag is true and the driver flag is
false, update the driver flag; otherwise drop it. -/
def updatesFold : List (SSEMessage × Bool) → Bool → List SSEMessage × Bool
  | [], flag => ([], flag)
  | (m, nf) :: rest, flag =>
      if sseHasToolSub m then
        let r := updatesFold rest flag
        (m :: r.1, r.2)
      else if nf && !flag then updatesFold rest nf
      else updatesFold rest flag

/-- The custom-channel event (main.py:566-575): either an `Exception`
instance, or a dict with an `event_type` (whose `.value` is a string) and a
`data` payload (`None` becomes `none`). -/
inductive CustomEvent where
  | exc (text : String)
  | evt (event_type : String) (data : Option Json)
  deriving DecidableEq

/-- One element of the `agent.astream` sequence as consumed by
`message_generator`: a `("updates", event)`, `("messages", (msg, metadata))`
or `("custom", event)` tuple, or a non-tuple item (skipped at
main.py:521). -/
inductive StreamEvent where
  | updates (event : List UpdateItem)
  | messages (isAIChunk : Bool) (content : MsgContent) (tags : List String)
  | custom (event : CustomEvent)
  | notTuple
  deriving DecidableEq

/-- Driver state across loop iterations of `message_generator`:
`tool_executions`, `completed_tools`, `stream_started`,
`complete_message`. -/
structure MGSt where
  te : ToolExec
  completed : List String
  flag : Bool
  complete_message : String
  deriving DecidableEq

/-- Processing of one `stream_event` by the body of the `async for` loop
(main.py:516-575).  The error component models an exception escaping the
loop body: the `KeyError` of `remove_tool_calls` on a dict item without a
`"type"` key, the `TypeError` of `complete_message += content` when the
remaining content is a list (main.py:558), or a raise propagating out of
`process_stream_updates`. -/
def runEvent (rid tid uin : String) :
    StreamEvent → MGSt → List SSEMessage × MGSt × Option String
  | .notTuple, st => ([], st, none)
  | .updates items, st =>
      let ru := processStreamUpdates items rid tid uin st.te st.flag st.completed
      let rf := updatesFold ru.1 st.flag
      (rf.1, { st with te := ru.2.1.te, completed := ru.2.1.completed, flag := rf.2 }, ru.2.2)
  | .messages isAIChunk content tags, st =>
      if tags.contains "skip_stream" then ([], st, none)
      else if ¬isAIChunk then ([], st, none)
      else
        match remove_tool_calls content with
        | .error e => ([], st, some e)
        | .ok content2 =>
            if content2.truthy then
              let pre := if st.flag then ([] : List SSEMessage) else [streamStartM]
              let st1 := { st with flag := true }
              match content2 with
              | .s text =>
                  (pre ++ [streamTokenM (convert_message_content_to_string (.s text))],
                   { st1 with complete_message := st1.complete_message ++ text }, none)
              | .parts _ =>
                  (pre, st1, some "can only concatenate str (not list) to str")
            else ([], st, none)
  | .custom (.exc text), st =>
      if st.flag then ([errorM text], st, none)
      else ([streamStartM, errorM text], { st with flag := true }, none)
  | .custom (.evt ty data), st => ([⟨ty, data⟩], st, none)

/-- The whole `async for` loop: process events in order; an exception in a
loop body stops consumption of the remaining events. -/
def runEvents (rid tid uin : String) :
    List StreamEvent → MGSt → List SSEMessage × MGSt × Option String
  | [], st => ([], st, none)
  | e :: rest, st =>
      let r1 := runEvent rid tid uin e st
      match r1.2.2 with
      | some er => (r1.1, r1.2.1, some er)
      | none =>
          let r2 := runEvents rid tid uin rest r1.2.1
          (r1.1 ++ r2.1, r2.2.1, r2.2.2)

/-- How the event source run ends when no exception escaped a loop body:
normal exhaustion, an exception raised by `agent.astream` itself, or an
`asyncio.CancelledError`.  `CancelledError` derives from `BaseException`,
not `Exception`, so it is not caught by the `except Exception` clause at
main.py:577, while the `finally` block still runs. -/
inductive Terminal where
  | exhausted
  | raisedSource (text : String)
  | cancelled
  deriving DecidableEq

/-- Driver state at the start of a run (main.py:504-507). -/
def initMGSt : MGSt := ⟨[], [], false, ""⟩

/-- The `except Exception` handler of `message_generator` (main.py:577-580):
a `stream_start` frame when the flag is false — without setting the flag —
then an `error` frame carrying `str(e)`. -/
def exceptChunk (flag : Bool) (e : String) : List SSEMessage :=
  (if flag then [] else [streamStartM]) ++ [errorM e]

/-- The `finally` block of `message_generator` (main.py:581-586): a
`stream_end` frame carrying the thread id, exactly when `stream_started` is
true. -/
def finallyChunk (flag : Bool) (tid : String) : List SSEMessage :=
  if flag then [streamEndM tid] else []

/-- Embedding of `message_generator` (main.py:484-587) as a function from
the source event sequence and the way the source run ends to the list of
SSE messages sent to the client (each sent as `create_sse_data` of the
listed message). -/
def messageGenerator (events : List StreamEvent) (terminal : Terminal)
    (tid rid uin : String) : List SSEMessage :=
  let r := runEvents rid tid uin events initMGSt
  match r.2.2 with
  | some e => r.1 ++ exceptChunk r.2.1.flag e ++ finallyChunk r.2.1.flag tid
  | none =>
      match terminal with
      | .exhausted => r.1 ++ finallyChunk r.2.1.flag tid
      | .raisedSource e => r.1 ++ exceptChunk r.2.1.flag e ++ finallyChunk r.2.1.flag tid
      | .cancelled => r.1 ++ finallyChunk r.2.1.flag tid

/-! ## The `invoke` handler (main.py:186-265) -/

/-- One `(response_type, response)` element of the `ainvoke` result list
(main.py:227-243): a `"values"` event carrying a message list, an
`"updates"` event that contains `"__interrupt__"` (its first interrupt
value), an `"updates"` event without it, or an event of any other type. -/
inductive FinalEvent where
  | values (messages : List LCMessage)
  | updatesWithInterrupt (firstValue : String)
  | updatesNoInterrupt
  | otherType (ty : String)
  deriving DecidableEq

/-- How the awaited agent execution inside `invoke` ends: with a result
list, or interrupted by `asyncio.CancelledError`. -/
inductive InvokeRun where
  | returned (events : List FinalEvent)
  | cancelled
  deriving DecidableEq

/-- The HTTP-level outcome of `invoke`: the success dict
`{"content", "thread_id", "run_id"}`, or an `AgentError` mapped by the
exception handler to a JSON error response with a status code. -/
inductive InvokeResult where
  | ok (content : String) (thread_id : String) (run_id : String)
  | httpError (errName : String) (message : String) (statusCode : Nat)
  deriving DecidableEq

/-- Embedding of the `invoke` route handler body after `_handle_input`
(main.py:225-265): inspect the last response event; `asyncio.CancelledError`
is caught and converted to the fixed `"Generation was stopped."` content;
`AgentError`s are re-raised and reach the exception handler as structured
400/500 responses; any other exception (an unconvertible message, an empty
message list) becomes the generic 500 `AgentError`. -/
def invokePost (run : InvokeRun) (thread_id run_id : String) : InvokeResult :=
  match run with
  | .cancelled => .ok "Generation was stopped." thread_id run_id
  | .returned [] => .httpError "AgentExecutionError" "No response received from agent" 400
  | .returned (e :: rest) =>
      match (e :: rest).getLast (by simp) with
      | .values msgs =>
          match msgs.getLast? with
          | none => .httpError "AgentError" "An unexpected error occurred" 500
          | some lastMsg =>
              match langchain_to_chat_message lastMsg with
              | .ok cm => .ok cm.content thread_id run_id
              | .error _ => .httpError "AgentError" "An unexpected error occurred" 500
      | .updatesWithInterrupt v => .ok v thread_id run_id
      | .updatesNoInterrupt =>
          .httpError "AgentExecutionError" "Unexpected response type: updates" 400
      | .otherType ty =>
          .httpError "AgentExecutionError" ("Unexpected response type: " ++ ty) 400

/-! ## The module-level checkpointer (`src/agents/Agent_AI/Agent_AI.py`)

`Agent_AI.py` constructs `checkpointer = InMemorySaver()` at module scope and
passes it to `create_react_agent`.  The saver itself is third-party code;
its effect is modelled from the repository's own documentation
(`pre_model_hook.py`: "maintenant que nous avons un checkpointer, les
messages sont automatiquement persistés entre les interactions avec le même
thread_id"; the `lifespan` comment in main.py:74-75 says the same): the
process-wide saver maps each thread id to the accumulated message list, an
invocation for a thread prepends the stored history to the new input
message, and the extended history (including the agent's reply) is stored
back. -/

/-- The process-wide `InMemorySaver` content: thread id to stored message
list.  `checkpointerInit` is its state at process start. -/
abbrev SaverState := List (String × List LCMessage)

/-- The saver as constructed at import time: empty. -/
def checkpointerInit : SaverState := []

/-- Stored history for a thread (empty when the thread is unknown). -/
def saverHistory (cp : SaverState) (thread_id : String) : List LCMessage :=
  match cp with
  | [] => []
  | (t, msgs) :: rest => if t = thread_id then msgs else saverHistory rest thread_id

/-- Store a history back for a thread (replace or append). -/
def saverStore (cp : SaverState) (thread_id : String) (msgs : List LCMessage) : SaverState :=
  match cp with
  | [] => [(thread_id, msgs)]
  | (t, old) :: rest =>
      if t = thread_id then (thread_id, msgs) :: rest
      else (t, old) :: saverStore rest thread_id msgs

/-- Modelled from the spec and the repository's comments (see section
header): the message sequence the checkpointed agent actually runs on for a
request, namely the stored history of the request's thread followed by the
request's single `HumanMessage` (main.py:161-163, 217-221 build the input
with only the current message; the checkpointer prepends the persisted
history). -/
def agentMessagesSeen (cp : SaverState) (thread_id : String) (message : String) :
    List LCMessage :=
  saverHistory cp thread_id ++ [.human (.s message)]

/-- One completed run, parameterized by the opaque model: the reply is any
function of the messages the agent saw, and the saver keeps the seen
messages extended with the reply. -/
def runOnce (reply : List LCMessage → LCMessage) (cp : SaverState)
    (thread_id : String) (message : String) : SaverState :=
  saverStore cp thread_id (agentMessagesSeen cp thread_id message ++
    [reply (agentMessagesSeen cp thread_id message)])

/-! ## Trace analysis helpers

These definitions are not part of the embedding; they are the vocabulary in
which the claims about whole frame sequences are stated. -/

/-- Number of frames of a given event type in a trace. -/
def countType (t : String) (l : List SSEMessage) : Nat :=
  (l.filter fun m => m.type == t).length

/-- No event of the list is a non-exception custom event declaring the given
SSE event type (custom events copy their declared type verbatim at
main.py:573-575, so they can forge any frame type). -/
def NoCustomType (events : List StreamEvent) (t : String) : Prop :=
  ∀ ty d, StreamEvent.custom (.evt ty d) ∈ events → ty ≠ t

/-- `startAdjFby l fby` checks that every `stream_start`-typed frame of
`l` is immediately followed by a `stream_token` or `error` frame; `fby` tells
whether such a frame follows the whole list (used at chunk boundaries). -/
def startAdjFby : List SSEMessage → Bool → Bool
  | [], _ => true
  | [m], fby => !(m.type == "stream_start") || fby
  | m :: m2 :: rest, fby =>
      (!(m.type == "stream_start") || (m2.type == "stream_token" || m2.type == "error")) &&
      startAdjFby (m2 :: rest) fby

/-- Does `seen` contain a `tool_execution_start` frame with the same content
as `m`? -/
def hasMatchingStart (seen : List SSEMessage) (m : SSEMessage) : Bool :=
  seen.any fun m2 => m2.type == "tool_execution_start" && m2.content == m.content

/-- Every `tool_execution_complete` frame of the list is preceded (in `seen`
or earlier in the list) by a `tool_execution_start` frame with the same
content (the recorded name and params). -/
def completePrec (seen : List SSEMessage) : List SSEMessage → Bool
  | [] => true
  | m :: rest =>
      (if m.type == "tool_execution_complete" then hasMatchingStart seen m else true) &&
      completePrec (m :: seen) rest

/-- Invariant tying the tracker to the already-sent client frames: every
pending entry was recorded together with an emitted start frame carrying the
same name and params. -/
def TeStarts (te : ToolExec) (seen : List SSEMessage) : Prop :=
  ∀ kv ∈ te, toolStartM kv.2.name kv.2.params ∈ seen

/-- The possible shapes of a frame yielded by `process_stream_updates`: its
five yield sites produce exactly these messages. -/
def PsuShape (m : SSEMessage) : Prop :=
  m = streamStartM ∨ (∃ t, m = streamTokenM t) ∨ (∃ n p, m = toolStartM n p) ∨
  (∃ n p, m = toolCompleteM n p) ∨ m = errorM "Unexpected error"

/-- First-element continuation used when splitting `startAdjFby` at an
append boundary. -/
def headFby (l : List SSEMessage) (fby : Bool) : Bool :=
  match l with
  | [] => fby
  | m :: _ => m.type == "stream_token" || m.type == "error"

/-- The client-visible projection of a list of yielded
`(frame, stream_started)` pairs: the frames whose rendered text passes the
forwarding filter (this equals `updatesFold`'s output by
`updatesFold_filter`). -/
def clientOf (pairs : List (SSEMessage × Bool)) : List SSEMessage :=
  (pairs.map Prod.fst).filter sseHasToolSub

/-- Split a character list at newline characters. -/
def splitNL : List Char → List (List Char)
  | [] => [[]]
  | c :: rest =>
      if c = '\n' then [] :: splitNL rest
      else
        match splitNL rest with
        | [] => [[c]]
        | l :: ls => (c :: l) :: ls

/-- The lines of a string, splitting at every newline. -/
def linesOf (s : String) : List String :=
  (splitNL s.data).map String.mk

/-! ## Supporting lemmas -/

theorem charsHavePre_append_self : ∀ p r : List Char, charsHavePre p (p ++ r) = true := by
  intro p r
  induction p with
  | nil => rfl
  | cons a as ih => simp [charsHavePre, ih]

theorem charsHaveSub_of_pre : ∀ {p l : List Char}, charsHavePre p l = true →
    charsHaveSub p l = true := by
  intro p l h
  cases l with
  | nil => rw [charsHaveSub]; exact h
  | cons c rest => rw [charsHaveSub]; simp [h]

theorem sseHasToolSub_toolStart (n : String) (p : Json) :
    sseHasToolSub (toolStartM n p) = true := by
  have hs : create_sse_data (toolStartM n p) =
      "event: tool_execution_start" ++
        ("\n" ++ ("data: " ++
          (jsonDumps (.obj [("name", .str n), ("params", p)]) ++ "\n\n"))) := by
    show (((("event: " ++ "tool_execution_start" ++ "\n") ++ "data: ") ++
        jsonDumps (.obj [("name", .str n), ("params", p)])) ++ "\n") ++ "\n" = _
    simp only [String.append_assoc]
    rfl
  have hpre : charsHavePre ("event: tool_execution_start" : String).data
      (create_sse_data (toolStartM n p)).data = true := by
    rw [hs, String.data_append]
    exact charsHavePre_append_self _ _
  have h1 : strContainsSub (create_sse_data (toolStartM n p))
      "event: tool_execution_start" = true := by
    rw [strContainsSub]
    exact charsHaveSub_of_pre hpre
  rw [sseHasToolSub, h1, Bool.true_or]

theorem sseHasToolSub_toolComplete (n : String) (p : Json) :
    sseHasToolSub (toolCompleteM n p) = true := by
  have hs : create_sse_data (toolCompleteM n p) =
      "event: tool_execution_complete" ++
        ("\n" ++ ("data: " ++
          (jsonDumps (.obj [("name", .str n), ("params", p)]) ++ "\n\n"))) := by
    show (((("event: " ++ "tool_execution_complete" ++ "\n") ++ "data: ") ++
        jsonDumps (.obj [("name", .str n), ("params", p)])) ++ "\n") ++ "\n" = _
    simp only [String.append_assoc]
    rfl
  have hpre : charsHavePre ("event: tool_execution_complete" : String).data
      (create_sse_data (toolCompleteM n p)).data = true := by
    rw [hs, String.data_append]
    exact charsHavePre_append_self _ _
  have h2 : strContainsSub (create_sse_data (toolCompleteM n p))
      "event: tool_execution_complete" = true := by
    rw [strContainsSub]
    exact charsHaveSub_of_pre hpre
  rw [sseHasToolSub, h2, Bool.or_true]

theorem sseHasToolSub_streamStart : sseHasToolSub streamStartM = false := by decide

theorem sseHasToolSub_genericError : sseHasToolSub (errorM "Unexpected error") = false := by
  decide

/-- The client-side frames produced by the updates branch are the yielded
frames whose rendered text passes the substring test, in order, independent
of the driver flag. -/
theorem updatesFold_filter : ∀ (pairs : List (SSEMessage × Bool)) (flag : Bool),
    (updatesFold pairs flag).1 = (pairs.map Prod.fst).filter sseHasToolSub := by
  intro pairs
  induction pairs with
  | nil => intro flag; rfl
  | cons pr rest ih =>
      intro flag
      obtain ⟨m, nf⟩ := pr
      rw [updatesFold]
      by_cases hm : sseHasToolSub m = true
      · simp [hm, ih]
      · simp only [Bool.not_eq_true] at hm
        by_cases hnf : (nf && !flag) = true <;> simp [hm, hnf, ih]

/-- A frame of `process_stream_updates` that passes the forwarding filter is
a token frame or a tool frame; in particular it is never a `stream_start`,
`stream_end` or `error` frame. -/
theorem psuShape_filter {m : SSEMessage} (hs : PsuShape m)
    (hf : sseHasToolSub m = true) :
    m.type = "stream_token" ∨ m.type = "tool_execution_start" ∨
      m.type = "tool_execution_complete" := by
  rcases hs with h | ⟨t, h⟩ | ⟨n, p, h⟩ | ⟨n, p, h⟩ | h
  · rw [h, sseHasToolSub_streamStart] at hf; cases hf
  · subst h; left; rfl
  · subst h; right; left; rfl
  · subst h; right; right; rfl
  · rw [h, sseHasToolSub_genericError] at hf; cases hf

theorem processInterrupts_shape (ints : List Interrupt) (flag : Bool) :
    ∀ pr ∈ (processInterrupts ints flag).1, PsuShape pr.1 := by
  induction ints generalizing flag with
  | nil => intro pr hpr; simp [processInterrupts] at hpr
  | cons i rest ih =>
      intro pr hpr
      rw [processInterrupts] at hpr
      split at hpr
      · simp only [List.mem_cons] at hpr
        rcases hpr with h | h | h
        · subst h; exact Or.inl rfl
        · subst h; exact Or.inr (Or.inl ⟨_, rfl⟩)
        · exact ih _ _ h
      · simp only [List.mem_cons] at hpr
        rcases hpr with h | h
        · subst h; exact Or.inr (Or.inl ⟨_, rfl⟩)
        · exact ih _ _ h

theorem recordCalls_shape (calls : List ToolCallReq) (te : ToolExec) (flag : Bool) :
    ∀ pr ∈ (recordCalls calls te flag).1, PsuShape pr.1 := by
  induction calls generalizing te with
  | nil => intro pr hpr; simp [recordCalls] at hpr
  | cons tc rest ih =>
      intro pr hpr
      rw [recordCalls] at hpr
      simp only [List.mem_cons] at hpr
      rcases hpr with h | h
      · subst h; exact Or.inr (Or.inr (Or.inl ⟨_, _, rfl⟩))
      · exact ih _ _ h

theorem processMessages_shape (rid tid uin : String) (msgs : List LCMessage) :
    ∀ st : PSUSt, ∀ pr ∈ (processMessages rid tid uin msgs st).1, PsuShape pr.1 := by
  induction msgs with
  | nil => intro st pr hpr; simp [processMessages] at hpr
  | cons m rest ih =>
      intro st pr hpr
      rw [processMessages] at hpr
      cases hlc : langchain_to_chat_message m with
      | ok cm0 =>
          rw [hlc] at hpr
          simp only at hpr
          split_ifs at hpr with h1 h2 h3 h4 h5
          · exact ih _ _ hpr
          · rcases List.mem_append.mp hpr with h | h
            · exact recordCalls_shape _ _ _ _ h
            · exact ih _ _ h
          · cases htc : cm0.tool_call_id with
            | some callId =>
                rw [htc] at hpr
                simp only at hpr
                cases hlk : teLookup st.te callId with
                | some info =>
                    rw [hlk] at hpr
                    simp only [List.mem_cons] at hpr
                    rcases hpr with h | h
                    · subst h; exact Or.inr (Or.inr (Or.inr (Or.inl ⟨_, _, rfl⟩)))
                    · exact ih _ _ h
                | none =>
                    rw [hlk] at hpr
                    simp only at hpr
                    exact ih _ _ hpr
            | none =>
                rw [htc] at hpr
                simp only at hpr
                exact ih _ _ hpr
          · simp only [List.mem_cons] at hpr
            rcases hpr with h | h
            · subst h; exact Or.inr (Or.inl ⟨_, rfl⟩)
            · exact ih _ _ h
          · simp only [List.mem_cons] at hpr
            rcases hpr with h | h | h
            · subst h; exact Or.inl rfl
            · subst h; exact Or.inr (Or.inl ⟨_, rfl⟩)
            · exact ih _ _ h
          · exact ih _ _ hpr
      | error e =>
          rw [hlc] at hpr
          simp only at hpr
          cases hl : st.lastChat with
          | none =>
              rw [hl] at hpr
              simp only at hpr
              split_ifs at hpr
              · simp at hpr
              · simp only [List.mem_singleton] at hpr
                subst hpr; exact Or.inl rfl
          | some prev =>
              rw [hl] at hpr
              simp only at hpr
              split_ifs at hpr with hf
              · simp only [List.nil_append, List.mem_cons] at hpr
                rcases hpr with h | h
                · subst h; exact Or.inr (Or.inr (Or.inr (Or.inr rfl)))
                · exact ih _ _ h
              · simp only [List.cons_append, List.nil_append, List.mem_cons] at hpr
                rcases hpr with h | h | h
                · subst h; exact Or.inl rfl
                · subst h; exact Or.inr (Or.inr (Or.inr (Or.inr rfl)))
                · exact ih _ _ h

theorem processUpdateItems_shape (rid tid uin : String) (items : List UpdateItem) :
    ∀ st : PSUSt, ∀ pr ∈ (processUpdateItems rid tid uin items st).1, PsuShape pr.1 := by
  induction items with
  | nil => intro st pr hpr; simp [processUpdateItems] at hpr
  | cons item rest ih =>
      intro st pr hpr
      cases item with
      | interruptNode ints =>
          rw [processUpdateItems] at hpr
          simp only at hpr
          rcases List.mem_append.mp hpr with h | h
          · exact processInterrupts_shape _ _ _ h
          · exact ih _ _ h
      | node name msgs =>
          rw [processUpdateItems] at hpr
          simp only at hpr
          cases herr : (processMessages rid tid uin msgs st).2.2 with
          | some e =>
              rw [herr] at hpr
              simp only at hpr
              exact processMessages_shape _ _ _ _ _ _ hpr
          | none =>
              rw [herr] at hpr
              simp only at hpr
              rcases List.mem_append.mp hpr with h | h
              · exact processMessages_shape _ _ _ _ _ _ h
              · exact ih _ _ h

/-- Every client-side frame of one driver loop iteration is a
`stream_start`, `stream_token`, tool start/complete or `error` frame — or
the verbatim copy of a non-exception custom event. -/
theorem runEvent_frame_shapes (rid tid uin : String) (e : StreamEvent) (st : MGSt) :
    ∀ m ∈ (runEvent rid tid uin e st).1,
      m = streamStartM ∨ (∃ t, m = streamTokenM t) ∨ (∃ n p, m = toolStartM n p) ∨
      (∃ n p, m = toolCompleteM n p) ∨ (∃ s, m = errorM s) ∨
      (∃ ty d, e = .custom (.evt ty d) ∧ m = ⟨ty, d⟩) := by
  intro m hm
  cases e with
  | notTuple => simp [runEvent] at hm
  | updates items =>
      rw [runEvent] at hm
      simp only at hm
      rw [updatesFold_filter] at hm
      rcases List.mem_filter.mp hm with ⟨hmem, hpass⟩
      rcases List.mem_map.mp hmem with ⟨pr, hpr, hfst⟩
      have hs := processUpdateItems_shape rid tid uin items _ pr hpr
      rw [hfst] at hs
      rcases hs with h | ⟨t, h⟩ | ⟨n, p, h⟩ | ⟨n, p, h⟩ | h
      · exact Or.inl h
      · exact Or.inr (Or.inl ⟨t, h⟩)
      · exact Or.inr (Or.inr (Or.inl ⟨n, p, h⟩))
      · exact Or.inr (Or.inr (Or.inr (Or.inl ⟨n, p, h⟩)))
      · exact Or.inr (Or.inr (Or.inr (Or.inr (Or.inl ⟨_, h⟩))))
  | messages isAIChunk content tags =>
      rw [runEvent] at hm
      by_cases hskip : tags.contains "skip_stream" = true
      · rw [if_pos hskip] at hm; simp at hm
      · rw [if_neg hskip] at hm
        by_cases hai : isAIChunk = true
        · rw [if_neg (not_not_intro hai)] at hm
          cases hrc : remove_tool_calls content with
          | error e2 => rw [hrc] at hm; simp at hm
          | ok content2 =>
              rw [hrc] at hm
              simp only at hm
              by_cases ht : content2.truthy = true
              · rw [if_pos ht] at hm
                cases content2 with
                | s text =>
                    simp only at hm
                    by_cases hflag : st.flag = true
                    · rw [if_pos hflag] at hm
                      simp only [List.nil_append, List.mem_singleton] at hm
                      subst hm; exact Or.inr (Or.inl ⟨_, rfl⟩)
                    · rw [if_neg hflag] at hm
                      simp only [List.cons_append, List.nil_append, List.mem_cons,
                        List.mem_singleton, List.not_mem_nil, or_false] at hm
                      rcases hm with h | h
                      · subst h; exact Or.inl rfl
                      · subst h; exact Or.inr (Or.inl ⟨_, rfl⟩)
                | parts items2 =>
                    simp only at hm
                    by_cases hflag : st.flag = true
                    · rw [if_pos hflag] at hm; simp at hm
                    · rw [if_neg hflag] at hm
                      simp only [List.mem_singleton] at hm
                      subst hm; exact Or.inl rfl
              · rw [if_neg ht] at hm; simp at hm
        · rw [if_pos (by simpa using hai)] at hm; simp at hm
  | custom ev =>
      cases ev with
      | exc text =>
          rw [runEvent] at hm
          by_cases hflag : st.flag = true
          · rw [if_pos hflag] at hm
            simp only [List.mem_singleton] at hm
            subst hm; exact Or.inr (Or.inr (Or.inr (Or.inr (Or.inl ⟨_, rfl⟩))))
          · rw [if_neg hflag] at hm
            simp only [List.mem_cons, List.mem_singleton, List.not_mem_nil, or_false] at hm
            rcases hm with h | h
            · subst h; exact Or.inl rfl
            · subst h; exact Or.inr (Or.inr (Or.inr (Or.inr (Or.inl ⟨_, rfl⟩))))
      | evt ty d =>
          rw [runEvent] at hm
          simp only [List.mem_singleton] at hm
          subst hm
          exact Or.inr (Or.inr (Or.inr (Or.inr (Or.inr ⟨ty, d, rfl, rfl⟩))))

/-- Under exclusion of forged custom frames of type `t` (for
`t ∉ {stream_start, stream_token, tool start/complete, error}`), the loop
body never emits a frame of type `t`; instantiated at `"stream_end"` below. -/
theorem runEvents_no_type (rid tid uin : String) (events : List StreamEvent)
    (t : String) (ht1 : t ≠ "stream_start") (ht2 : t ≠ "stream_token")
    (ht3 : t ≠ "tool_execution_start") (ht4 : t ≠ "tool_execution_complete")
    (ht5 : t ≠ "error") (h : NoCustomType events t) :
    ∀ st : MGSt, ∀ m ∈ (runEvents rid tid uin events st).1, m.type ≠ t := by
  induction events with
  | nil => intro st m hm; simp [runEvents] at hm
  | cons e rest ih =>
      intro st m hm
      have hrest : NoCustomType rest t := by
        intro ty d hx
        exact h ty d (List.mem_cons_of_mem e hx)
      have hone : ∀ m2 ∈ (runEvent rid tid uin e st).1, m2.type ≠ t := by
        intro m2 hm2
        rcases runEvent_frame_shapes rid tid uin e st m2 hm2 with
          hsh | ⟨tk, hsh⟩ | ⟨n, p, hsh⟩ | ⟨n, p, hsh⟩ | ⟨s, hsh⟩ | ⟨ty, d, hev, hsh⟩
        · rw [hsh]; exact fun hc => ht1 hc.symm
        · rw [hsh]; exact fun hc => ht2 hc.symm
        · rw [hsh]; exact fun hc => ht3 hc.symm
        · rw [hsh]; exact fun hc => ht4 hc.symm
        · rw [hsh]; exact fun hc => ht5 hc.symm
        · have he : ty ≠ t := h ty d (hev ▸ List.mem_cons_self e rest)
          rw [hsh]
          exact he
      rw [runEvents] at hm
      cases herr : (runEvent rid tid uin e st).2.2 with
      | some er =>
          rw [herr] at hm
          simp only at hm
          exact hone m hm
      | none =>
          rw [herr] at hm
          simp only at hm
          rcases List.mem_append.mp hm with hmm | hmm
          · exact hone m hmm
          · exact ih hrest _ m hmm

theorem countType_append (t : String) (a b : List SSEMessage) :
    countType t (a ++ b) = countType t a + countType t b := by
  simp [countType, List.filter_append]

theorem countType_eq_zero {t : String} {l : List SSEMessage}
    (h : ∀ m ∈ l, m.type ≠ t) : countType t l = 0 := by
  rw [countType, List.length_eq_zero, List.filter_eq_nil_iff]
  intro m hm
  simpa using h m hm

theorem startAdjFby_append : ∀ (a b : List SSEMessage) (fby : Bool),
    startAdjFby (a ++ b) fby = (startAdjFby a (headFby b fby) && startAdjFby b fby) := by
  intro a
  induction a with
  | nil => intro b fby; simp [startAdjFby, headFby]
  | cons m a2 ih =>
      intro b fby
      cases a2 with
      | nil =>
          cases b with
          | nil => simp [startAdjFby, headFby]
          | cons m2 rest => simp [startAdjFby, headFby, Bool.and_assoc]
      | cons m2 a3 =>
          have hrec := ih b fby
          simp only [List.cons_append] at hrec ⊢
          rw [startAdjFby, startAdjFby, hrec, ← Bool.and_assoc]

theorem startAdjFby_any {l : List SSEMessage} (h : startAdjFby l false = true)
    (fby : Bool) : startAdjFby l fby = true := by
  induction l with
  | nil => rfl
  | cons m rest ih =>
      cases rest with
      | nil =>
          rw [startAdjFby] at h ⊢
          simp only [Bool.or_false] at h
          simp [h]
      | cons m2 r2 =>
          rw [startAdjFby] at h ⊢
          simp only [Bool.and_eq_true] at h ⊢
          exact ⟨h.1, ih h.2⟩

theorem noStart_adj {l : List SSEMessage} (h : ∀ m ∈ l, ¬(m.type = "stream_start")) :
    ∀ fby, startAdjFby l fby = true := by
  induction l with
  | nil => intro fby; rfl
  | cons m rest ih =>
      intro fby
      have hm : (m.type == "stream_start") = false := by
        simpa using h m (List.mem_cons_self m rest)
      have hrest := ih fun m2 hm2 => h m2 (List.mem_cons_of_mem m hm2)
      cases rest with
      | nil => rw [startAdjFby]; simp [hm]
      | cons m2 r2 => rw [startAdjFby]; simp [hm, hrest fby]

theorem exceptChunk_adj (fl : Bool) (er : String) :
    startAdjFby (exceptChunk fl er) false = true := by
  cases fl <;> simp [exceptChunk, startAdjFby, streamStartM, errorM]

theorem finallyChunk_adj (fl : Bool) (tid : String) :
    startAdjFby (finallyChunk fl tid) false = true := by
  cases fl <;> simp [finallyChunk, startAdjFby, streamEndM]

theorem updatesFold_mono : ∀ pairs : List (SSEMessage × Bool),
    (updatesFold pairs true).2 = true := by
  intro pairs
  induction pairs with
  | nil => rfl
  | cons pr rest ih =>
      obtain ⟨m, nf⟩ := pr
      rw [updatesFold]
      by_cases hm : sseHasToolSub m = true
      · simp [hm, ih]
      · simp only [Bool.not_eq_true] at hm
        simp [hm, ih]

/-- Frames forwarded from the updates channel are tokens or tool frames —
never `stream_start`, `stream_end` or `error` frames. -/
theorem updates_chunk_types (rid tid uin : String) (items : List UpdateItem) (st : MGSt) :
    ∀ m ∈ (runEvent rid tid uin (.updates items) st).1,
      m.type = "stream_token" ∨ m.type = "tool_execution_start" ∨
        m.type = "tool_execution_complete" := by
  intro m hm
  rw [runEvent] at hm
  simp only at hm
  rw [updatesFold_filter] at hm
  rcases List.mem_filter.mp hm with ⟨hmem, hpass⟩
  rcases List.mem_map.mp hmem with ⟨pr, hpr, hfst⟩
  have hs := processUpdateItems_shape rid tid uin items _ pr hpr
  rw [hfst] at hs
  exact psuShape_filter hs hpass

/-- Per-iteration facts about client-side `stream_start` frames: at most one
(none when the driver flag is already set), the flag is monotone, and a
`stream_start` emission sets the flag. -/
theorem runEvent_start_facts (rid tid uin : String) (e : StreamEvent) (st : MGSt)
    (he : ∀ ty d, e = .custom (.evt ty d) → ty ≠ "stream_start") :
    countType "stream_start" (runEvent rid tid uin e st).1 ≤ (if st.flag then 0 else 1) ∧
    (st.flag = true → (runEvent rid tid uin e st).2.1.flag = true) ∧
    (1 ≤ countType "stream_start" (runEvent rid tid uin e st).1 →
      (runEvent rid tid uin e st).2.1.flag = true) := by
  cases e with
  | notTuple =>
      refine ⟨?_, fun hf => hf, ?_⟩ <;> simp [runEvent, countType]
  | updates items =>
      have h0 : countType "stream_start" (runEvent rid tid uin (.updates items) st).1 = 0 := by
        apply countType_eq_zero
        intro m hm
        rcases updates_chunk_types rid tid uin items st m hm with h | h | h <;>
          · rw [h]; decide
      refine ⟨by rw [h0]; cases st.flag <;> simp, ?_, by rw [h0]; omega⟩
      intro hf
      rw [runEvent]
      simp only
      rw [hf]
      exact updatesFold_mono _
  | messages isAIChunk content tags =>
      rw [runEvent]
      by_cases hskip : tags.contains "skip_stream" = true
      · rw [if_pos hskip]
        refine ⟨by simp [countType], fun hf => hf, by simp [countType]⟩
      · rw [if_neg hskip]
        by_cases hai : isAIChunk = true
        · rw [if_neg (not_not_intro hai)]
          cases hrc : remove_tool_calls content with
          | error e2 =>
              refine ⟨by simp [countType], fun hf => hf, by simp [countType]⟩
          | ok content2 =>
              simp only
              by_cases ht : content2.truthy = true
              · rw [if_pos ht]
                cases content2 with
                | s text =>
                    simp only
                    by_cases hflag : st.flag = true
                    · rw [if_pos hflag, hflag]
                      refine ⟨?_, by intro _; first | rfl | trivial, by intro _; first | rfl | trivial⟩
                      simp [countType, streamTokenM]
                    · rw [if_neg hflag]
                      simp only [Bool.not_eq_true] at hflag
                      rw [hflag]
                      refine ⟨?_, by intro _; first | rfl | trivial, by intro _; first | rfl | trivial⟩
                      simp [countType, streamStartM, streamTokenM]
                | parts items2 =>
                    simp only
                    by_cases hflag : st.flag = true
                    · rw [if_pos hflag, hflag]
                      exact ⟨by simp [countType], by intro _; first | rfl | trivial, by intro _; first | rfl | trivial⟩
                    · rw [if_neg hflag]
                      simp only [Bool.not_eq_true] at hflag
                      rw [hflag]
                      refine ⟨?_, by intro _; first | rfl | trivial, by intro _; first | rfl | trivial⟩
                      simp [countType, streamStartM]
              · rw [if_neg ht]
                refine ⟨by simp [countType], fun hf => hf, by simp [countType]⟩
        · rw [if_pos (by simpa using hai)]
          refine ⟨by simp [countType], fun hf => hf, by simp [countType]⟩
  | custom ev =>
      cases ev with
      | exc text =>
          rw [runEvent]
          by_cases hflag : st.flag = true
          · rw [if_pos hflag, hflag]
            refine ⟨?_, by intro _; rfl, by intro _; rfl⟩
            simp [countType, errorM]
          · rw [if_neg hflag]
            simp only [Bool.not_eq_true] at hflag
            rw [hflag]
            refine ⟨?_, by intro _; rfl, by intro _; rfl⟩
            simp [countType, streamStartM, errorM]
      | evt ty d =>
          rw [runEvent]
          simp only
          have hty : ty ≠ "stream_start" := he ty d rfl
          have h0 : countType "stream_start" [(⟨ty, d⟩ : SSEMessage)] = 0 := by
            apply countType_eq_zero
            intro m hm
            simp only [List.mem_singleton] at hm
            subst hm
            exact hty
          refine ⟨by rw [h0]; cases st.flag <;> simp, fun hf => hf, by rw [h0]; omega⟩

/-- Run-level facts about client-side `stream_start` frames: at most one per
run (none once the flag is set), monotone flag, and emission of a start sets
the flag.  Requires that no custom event forges a `stream_start` type. -/
theorem runEvents_start_facts (rid tid uin : String) (events : List StreamEvent)
    (h : NoCustomType events "stream_start") :
    ∀ st : MGSt,
      countType "stream_start" (runEvents rid tid uin events st).1 ≤
        (if st.flag then 0 else 1) ∧
      (st.flag = true → (runEvents rid tid uin events st).2.1.flag = true) ∧
      (1 ≤ countType "stream_start" (runEvents rid tid uin events st).1 →
        (runEvents rid tid uin events st).2.1.flag = true) := by
  induction events with
  | nil =>
      intro st
      refine ⟨by simp [runEvents, countType], fun hf => hf, ?_⟩
      simp [runEvents, countType]
  | cons e rest ih =>
      intro st
      have he : ∀ ty d, e = .custom (.evt ty d) → ty ≠ "stream_start" :=
        fun ty d hev => h ty d (hev ▸ List.mem_cons_self e rest)
      have hrest : NoCustomType rest "stream_start" :=
        fun ty d hx => h ty d (List.mem_cons_of_mem e hx)
      have hev := runEvent_start_facts rid tid uin e st he
      rw [runEvents]
      cases herr : (runEvent rid tid uin e st).2.2 with
      | some er =>
          simp only
          exact hev
      | none =>
          simp only
          have ihr := ih hrest (runEvent rid tid uin e st).2.1
          rw [countType_append]
          refine ⟨?_, ?_, ?_⟩
          · cases hf : st.flag with
            | true =>
                have hA : countType "stream_start" (runEvent rid tid uin e st).1 = 0 := by
                  have := hev.1
                  rw [hf] at this
                  simpa using this
                have hfl1 : (runEvent rid tid uin e st).2.1.flag = true := hev.2.1 hf
                have hB : countType "stream_start"
                    (runEvents rid tid uin rest (runEvent rid tid uin e st).2.1).1 = 0 := by
                  have := ihr.1
                  rw [hfl1] at this
                  simpa using this
                simp [hA, hB]
            | false =>
                have hA : countType "stream_start" (runEvent rid tid uin e st).1 ≤ 1 := by
                  have := hev.1
                  rw [hf] at this
                  simpa using this
                by_cases hA1 : 1 ≤ countType "stream_start" (runEvent rid tid uin e st).1
                · have hfl1 := hev.2.2 hA1
                  have hB : countType "stream_start"
                      (runEvents rid tid uin rest (runEvent rid tid uin e st).2.1).1 = 0 := by
                    have := ihr.1
                    rw [hfl1] at this
                    simpa using this
                  simp only [hB, Nat.add_zero]
                  simpa using hA
                · have hA0 : countType "stream_start" (runEvent rid tid uin e st).1 = 0 := by
                    omega
                  have hB : countType "stream_start"
                      (runEvents rid tid uin rest (runEvent rid tid uin e st).2.1).1 ≤ 1 := by
                    have := ihr.1
                    cases hf2 : (runEvent rid tid uin e st).2.1.flag <;> rw [hf2] at this <;>
                      simpa using Nat.le_trans this (by simp)
                  simpa [hA0] using hB
          · intro hf
            exact ihr.2.1 (hev.2.1 hf)
          · intro hge
            by_cases hB1 : 1 ≤ countType "stream_start"
                (runEvents rid tid uin rest (runEvent rid tid uin e st).2.1).1
            · exact ihr.2.2 hB1
            · have hA1 : 1 ≤ countType "stream_start" (runEvent rid tid uin e st).1 := by
                omega
              exact ihr.2.1 (hev.2.2 hA1)

/-- Per-iteration adjacency: without an abort the chunk has every
`stream_start` immediately followed by a token or error frame and no
trailing `stream_start`; with an abort the same holds once the `except`
chunk that the driver will emit next is appended. -/
theorem runEvent_adj (rid tid uin : String) (e : StreamEvent) (st : MGSt)
    (he : ∀ ty d, e = .custom (.evt ty d) → ty ≠ "stream_start") :
    ((runEvent rid tid uin e st).2.2 = none →
      startAdjFby (runEvent rid tid uin e st).1 false = true) ∧
    (∀ er er2, (runEvent rid tid uin e st).2.2 = some er →
      startAdjFby ((runEvent rid tid uin e st).1 ++
        exceptChunk (runEvent rid tid uin e st).2.1.flag er2) false = true) := by
  cases e with
  | notTuple =>
      refine ⟨fun _ => rfl, fun er er2 hsome => ?_⟩
      simp [runEvent] at hsome
  | updates items =>
      have hns : ∀ m ∈ (runEvent rid tid uin (.updates items) st).1,
          ¬(m.type = "stream_start") := by
        intro m hm
        rcases updates_chunk_types rid tid uin (items) st m hm with h | h | h <;>
          · rw [h]; decide
      refine ⟨fun _ => noStart_adj hns false, fun er er2 hsome => ?_⟩
      rw [startAdjFby_append]
      rw [noStart_adj hns _, exceptChunk_adj]
      rfl
  | messages isAIChunk content tags =>
      rw [runEvent]
      by_cases hskip : tags.contains "skip_stream" = true
      · rw [if_pos hskip]
        exact ⟨fun _ => rfl, fun er er2 hsome => by simp at hsome⟩
      · rw [if_neg hskip]
        by_cases hai : isAIChunk = true
        · rw [if_neg (not_not_intro hai)]
          cases hrc : remove_tool_calls content with
          | error e2 =>
              refine ⟨fun hnone => by simp at hnone, fun er er2 _ => ?_⟩
              simp only [List.nil_append]
              exact exceptChunk_adj _ _
          | ok content2 =>
              simp only
              by_cases ht : content2.truthy = true
              · rw [if_pos ht]
                cases content2 with
                | s text =>
                    simp only
                    by_cases hflag : st.flag = true
                    · rw [if_pos hflag]
                      refine ⟨fun _ => ?_, fun er er2 hsome => by simp at hsome⟩
                      simp [startAdjFby, streamTokenM]
                    · rw [if_neg hflag]
                      refine ⟨fun _ => ?_, fun er er2 hsome => by simp at hsome⟩
                      simp [startAdjFby, streamStartM, streamTokenM]
                | parts items2 =>
                    simp only
                    by_cases hflag : st.flag = true
                    · rw [if_pos hflag]
                      refine ⟨fun hnone => by simp at hnone, fun er er2 _ => ?_⟩
                      simp only [List.nil_append]
                      exact exceptChunk_adj _ _
                    · rw [if_neg hflag]
                      refine ⟨fun hnone => by simp at hnone, fun er er2 _ => ?_⟩
                      simp [exceptChunk, startAdjFby, streamStartM, errorM]
              · rw [if_neg ht]
                exact ⟨fun _ => rfl, fun er er2 hsome => by simp at hsome⟩
        · rw [if_pos (by simpa using hai)]
          exact ⟨fun _ => rfl, fun er er2 hsome => by simp at hsome⟩
  | custom ev =>
      cases ev with
      | exc text =>
          rw [runEvent]
          by_cases hflag : st.flag = true
          · rw [if_pos hflag]
            refine ⟨fun _ => ?_, fun er er2 hsome => by simp at hsome⟩
            simp [startAdjFby, errorM]
          · rw [if_neg hflag]
            refine ⟨fun _ => ?_, fun er er2 hsome => by simp at hsome⟩
            simp [startAdjFby, streamStartM, errorM]
      | evt ty d =>
          rw [runEvent]
          refine ⟨fun _ => ?_, fun er er2 hsome => by simp at hsome⟩
          have hty : (ty == "stream_start") = false := by
            simpa using he ty d rfl
          simp [startAdjFby, hty]

/-- Run-level adjacency of `stream_start` frames. -/
theorem runEvents_adj (rid tid uin : String) (events : List StreamEvent)
    (h : NoCustomType events "stream_start") :
    ∀ st : MGSt,
      ((runEvents rid tid uin events st).2.2 = none →
        startAdjFby (runEvents rid tid uin events st).1 false = true) ∧
      (∀ er er2, (runEvents rid tid uin events st).2.2 = some er →
        startAdjFby ((runEvents rid tid uin events st).1 ++
          exceptChunk (runEvents rid tid uin events st).2.1.flag er2) false = true) := by
  induction events with
  | nil =>
      intro st
      exact ⟨fun _ => rfl, fun er er2 hsome => by simp [runEvents] at hsome⟩
  | cons e rest ih =>
      intro st
      have he : ∀ ty d, e = .custom (.evt ty d) → ty ≠ "stream_start" :=
        fun ty d hev => h ty d (hev ▸ List.mem_cons_self e rest)
      have hrest : NoCustomType rest "stream_start" :=
        fun ty d hx => h ty d (List.mem_cons_of_mem e hx)
      have hev := runEvent_adj rid tid uin e st he
      rw [runEvents]
      cases herr : (runEvent rid tid uin e st).2.2 with
      | some er =>
          simp only
          refine ⟨fun hnone => by simp at hnone, fun er3 er2 _ => ?_⟩
          exact hev.2 er er2 herr
      | none =>
          simp only
          have ihr := ih hrest (runEvent rid tid uin e st).2.1
          have hone := startAdjFby_any (hev.1 herr)
          refine ⟨fun hnone => ?_, fun er er2 hsome => ?_⟩
          · rw [startAdjFby_append, hone, ihr.1 hnone]
            rfl
          · rw [List.append_assoc, startAdjFby_append, hone, ihr.2 er er2 hsome]
            rfl

theorem teLookup_mem {te : ToolExec} {k : String} {v : ToolInfo}
    (h : teLookup te k = some v) : (k, v) ∈ te := by
  induction te with
  | nil => simp [teLookup] at h
  | cons kv rest ih =>
      obtain ⟨k2, v2⟩ := kv
      rw [teLookup] at h
      by_cases hk : k2 = k
      · rw [if_pos hk] at h
        subst hk
        cases h
        exact List.mem_cons_self _ _
      · rw [if_neg hk] at h
        exact List.mem_cons_of_mem _ (ih h)

theorem teInsert_mem {te : ToolExec} {k : String} {v : ToolInfo} {kv : String × ToolInfo}
    (h : kv ∈ teInsert te k v) : kv = (k, v) ∨ kv ∈ te := by
  induction te with
  | nil => simpa [teInsert] using h
  | cons kv2 rest ih =>
      obtain ⟨k2, v2⟩ := kv2
      rw [teInsert] at h
      by_cases hk : k2 = k
      · rw [if_pos hk] at h
        rcases List.mem_cons.mp h with h | h
        · exact Or.inl h
        · exact Or.inr (List.mem_cons_of_mem _ h)
      · rw [if_neg hk] at h
        rcases List.mem_cons.mp h with h | h
        · exact Or.inr (h ▸ List.mem_cons_self _ _)
        · rcases ih h with h | h
          · exact Or.inl h
          · exact Or.inr (List.mem_cons_of_mem _ h)

theorem teRemove_subset {te : ToolExec} {k : String} {kv : String × ToolInfo}
    (h : kv ∈ teRemove te k) : kv ∈ te := by
  induction te with
  | nil => simp [teRemove] at h
  | cons kv2 rest ih =>
      obtain ⟨k2, v2⟩ := kv2
      rw [teRemove] at h
      by_cases hk : k2 = k
      · rw [if_pos hk] at h
        exact List.mem_cons_of_mem _ h
      · rw [if_neg hk] at h
        rcases List.mem_cons.mp h with h | h
        · exact h ▸ List.mem_cons_self _ _
        · exact List.mem_cons_of_mem _ (ih h)

theorem teInsert_keys {te : ToolExec} {k : String} {v : ToolInfo} {x : String}
    (h : x ∈ (teInsert te k v).map Prod.fst) : x ∈ te.map Prod.fst ∨ x = k := by
  rcases List.mem_map.mp h with ⟨kv, hkv, hx⟩
  rcases teInsert_mem hkv with h2 | h2
  · right; rw [← hx, h2]
  · left; exact List.mem_map.mpr ⟨kv, h2, hx⟩

theorem teInsert_nodup {te : ToolExec} {k : String} {v : ToolInfo}
    (h : (te.map Prod.fst).Nodup) : ((teInsert te k v).map Prod.fst).Nodup := by
  induction te with
  | nil => simp [teInsert]
  | cons kv2 rest ih =>
      obtain ⟨k2, v2⟩ := kv2
      rw [teInsert]
      simp only [List.map_cons, List.nodup_cons] at h
      by_cases hk : k2 = k
      · rw [if_pos hk]
        subst hk
        simp only [List.map_cons, List.nodup_cons]
        exact h
      · rw [if_neg hk]
        simp only [List.map_cons, List.nodup_cons]
        refine ⟨?_, ih h.2⟩
        intro hmem
        rcases teInsert_keys hmem with h2 | h2
        · exact h.1 h2
        · exact hk h2

theorem teRemove_nodup {te : ToolExec} {k : String}
    (h : (te.map Prod.fst).Nodup) : ((teRemove te k).map Prod.fst).Nodup := by
  induction te with
  | nil => simp [teRemove]
  | cons kv2 rest ih =>
      obtain ⟨k2, v2⟩ := kv2
      rw [teRemove]
      simp only [List.map_cons, List.nodup_cons] at h
      by_cases hk : k2 = k
      · rw [if_pos hk]
        exact h.2
      · rw [if_neg hk]
        simp only [List.map_cons, List.nodup_cons]
        refine ⟨?_, ih h.2⟩
        intro hmem
        rcases List.mem_map.mp hmem with ⟨kv, hkv, hx⟩
        exact h.1 (List.mem_map.mpr ⟨kv, teRemove_subset hkv, hx⟩)

theorem completePrec_append : ∀ (a b seen : List SSEMessage),
    completePrec seen (a ++ b) =
      (completePrec seen a && completePrec (a.reverse ++ seen) b) := by
  intro a
  induction a with
  | nil => intro b seen; simp [completePrec]
  | cons m a2 ih =>
      intro b seen
      have hrev : a2.reverse ++ (m :: seen) = (m :: a2).reverse ++ seen := by simp
      calc completePrec seen ((m :: a2) ++ b)
          = ((if (m.type == "tool_execution_complete") = true then hasMatchingStart seen m
              else true) && completePrec (m :: seen) (a2 ++ b)) := rfl
        _ = ((if (m.type == "tool_execution_complete") = true then hasMatchingStart seen m
              else true) && (completePrec (m :: seen) a2 &&
                completePrec (a2.reverse ++ (m :: seen)) b)) := by rw [ih]
        _ = (completePrec seen (m :: a2) &&
              completePrec ((m :: a2).reverse ++ seen) b) := by
            rw [← Bool.and_assoc, hrev]
            exact rfl

theorem TeStarts_mono {te : ToolExec} {seen : List SSEMessage}
    (h : TeStarts te seen) (pre : List SSEMessage) : TeStarts te (pre ++ seen) :=
  fun kv hkv => List.mem_append.mpr (Or.inr (h kv hkv))

theorem noComplete_prec : ∀ {l : List SSEMessage} (seen : List SSEMessage),
    (∀ m ∈ l, ¬(m.type = "tool_execution_complete")) → completePrec seen l = true := by
  intro l
  induction l with
  | nil => intro seen _; rfl
  | cons m rest ih =>
      intro seen h
      rw [completePrec]
      have hm : (m.type == "tool_execution_complete") = false := by
        simpa using h m (List.mem_cons_self m rest)
      rw [if_neg (by simp [hm])]
      simpa using ih (m :: seen) fun m2 hm2 => h m2 (List.mem_cons_of_mem m hm2)

theorem clientOf_append (a b : List (SSEMessage × Bool)) :
    clientOf (a ++ b) = clientOf a ++ clientOf b := by
  simp [clientOf]

theorem clientOf_cons_pass {m : SSEMessage} {nf : Bool} {rest : List (SSEMessage × Bool)}
    (h : sseHasToolSub m = true) :
    clientOf ((m, nf) :: rest) = m :: clientOf rest := by
  simp [clientOf, h]

theorem clientOf_cons_drop {m : SSEMessage} {nf : Bool} {rest : List (SSEMessage × Bool)}
    (h : sseHasToolSub m = false) :
    clientOf ((m, nf) :: rest) = clientOf rest := by
  simp [clientOf, h]

theorem processInterrupts_types (ints : List Interrupt) (flag : Bool) :
    ∀ pr ∈ (processInterrupts ints flag).1,
      pr.1 = streamStartM ∨ ∃ t, pr.1 = streamTokenM t := by
  induction ints generalizing flag with
  | nil => intro pr hpr; simp [processInterrupts] at hpr
  | cons i rest ih =>
      intro pr hpr
      rw [processInterrupts] at hpr
      split at hpr
      · simp only [List.mem_cons] at hpr
        rcases hpr with h | h | h
        · subst h; exact Or.inl rfl
        · subst h; exact Or.inr ⟨_, rfl⟩
        · exact ih _ _ h
      · simp only [List.mem_cons] at hpr
        rcases hpr with h | h
        · subst h; exact Or.inr ⟨_, rfl⟩
        · exact ih _ _ h

/-- The tool-call recording loop only adds entries whose start frame is
forwarded alongside, keeps the key set duplicate-free, and emits no
completion frames. -/
theorem recordCalls_prec (calls : List ToolCallReq) :
    ∀ (te : ToolExec) (flag : Bool) (seen : List SSEMessage),
      TeStarts te seen →
      completePrec seen (clientOf (recordCalls calls te flag).1) = true ∧
      TeStarts (recordCalls calls te flag).2
        ((clientOf (recordCalls calls te flag).1).reverse ++ seen) ∧
      ((te.map Prod.fst).Nodup → (((recordCalls calls te flag).2).map Prod.fst).Nodup) := by
  induction calls with
  | nil =>
      intro te flag seen h
      refine ⟨rfl, ?_, fun hn => hn⟩
      simpa [clientOf] using h
  | cons tc rest ih =>
      intro te flag seen h
      rw [recordCalls]
      simp only
      rw [clientOf_cons_pass (sseHasToolSub_toolStart tc.name tc.args)]
      have hins : TeStarts (teInsert te tc.id ⟨tc.name, tc.args⟩)
          (toolStartM tc.name tc.args :: seen) := by
        intro kv hkv
        rcases teInsert_mem hkv with h2 | h2
        · subst h2
          exact List.mem_cons_self _ _
        · exact List.mem_cons_of_mem _ (h kv h2)
      have ihr := ih (teInsert te tc.id ⟨tc.name, tc.args⟩) flag
        (toolStartM tc.name tc.args :: seen) hins
      refine ⟨?_, ?_, fun hn => ihr.2.2 (teInsert_nodup hn)⟩
      · rw [completePrec]
        rw [if_neg (by simp [toolStartM])]
        simpa using ihr.1
      · have hlist : (clientOf (recordCalls rest (teInsert te tc.id ⟨tc.name, tc.args⟩)
            flag).1).reverse ++ (toolStartM tc.name tc.args :: seen) =
            (toolStartM tc.name tc.args :: clientOf (recordCalls rest
              (teInsert te tc.id ⟨tc.name, tc.args⟩) flag).1).reverse ++ seen := by
          simp
        rw [← hlist]
        exact ihr.2.1

theorem rev_cons_append (x : SSEMessage) (l seen : List SSEMessage) :
    l.reverse ++ (x :: seen) = (x :: l).reverse ++ seen := by simp

/-- Message-loop invariant for the tool tracker: every pending entry has a
forwarded start frame among the already-sent frames, every forwarded
completion frame is matched, and the key set stays duplicate-free. -/
theorem processMessages_prec (rid tid uin : String) (msgs : List LCMessage) :
    ∀ (st : PSUSt) (seen : List SSEMessage), TeStarts st.te seen →
      completePrec seen (clientOf (processMessages rid tid uin msgs st).1) = true ∧
      TeStarts (processMessages rid tid uin msgs st).2.1.te
        ((clientOf (processMessages rid tid uin msgs st).1).reverse ++ seen) ∧
      ((st.te.map Prod.fst).Nodup →
        (((processMessages rid tid uin msgs st).2.1.te).map Prod.fst).Nodup) := by
  induction msgs with
  | nil =>
      intro st seen h
      refine ⟨rfl, ?_, fun hn => hn⟩
      simpa [clientOf, processMessages] using h
  | cons m rest ih =>
      intro st seen h
      rw [processMessages]
      cases hlc : langchain_to_chat_message m with
      | ok cm0 =>
          dsimp only
          split_ifs with h1 h2 h3 h4 h5
          · exact ih _ seen h
          · -- tool-call branch
            have hrc := recordCalls_prec cm0.tool_calls st.te st.flag seen h
            have ihr := ih ⟨(recordCalls cm0.tool_calls st.te st.flag).2, st.completed,
              st.flag, some { cm0 with run_id := some rid, thread_id := some tid }⟩
              ((clientOf (recordCalls cm0.tool_calls st.te st.flag).1).reverse ++ seen)
              hrc.2.1
            rw [clientOf_append, completePrec_append]
            refine ⟨?_, ?_, fun hn => ihr.2.2 (hrc.2.2 hn)⟩
            · rw [hrc.1]
              simpa using ihr.1
            · rw [List.reverse_append, List.append_assoc]
              exact ihr.2.1
          · -- tool-result branch
            cases htc : cm0.tool_call_id with
            | some callId =>
                dsimp only
                cases hlk : teLookup st.te callId with
                | some info =>
                    dsimp only
                    rw [clientOf_cons_pass (sseHasToolSub_toolComplete info.name info.params)]
                    have hmatch : hasMatchingStart seen
                        (toolCompleteM info.name info.params) = true := by
                      apply List.any_eq_true.mpr
                      refine ⟨toolStartM info.name info.params,
                        h (callId, info) (teLookup_mem hlk), ?_⟩
                      simp [toolStartM, toolCompleteM]
                    have hsub : TeStarts (teRemove st.te callId)
                        (toolCompleteM info.name info.params :: seen) :=
                      fun kv hkv =>
                        List.mem_cons_of_mem _ (h kv (teRemove_subset hkv))
                    have ihr := ih ⟨teRemove st.te callId,
                      st.completed ++ [info.name], st.flag,
                      some ⟨cm0.type, cm0.content, cm0.tool_calls, some callId,
                        some rid, some tid⟩⟩
                      (toolCompleteM info.name info.params :: seen) hsub
                    refine ⟨?_, ?_, fun hn => ihr.2.2 (teRemove_nodup hn)⟩
                    · rw [completePrec]
                      rw [if_pos (by simp [toolCompleteM]), hmatch]
                      simpa using ihr.1
                    · rw [← rev_cons_append]
                      exact ihr.2.1
                | none =>
                    dsimp only
                    exact ih _ seen h
            | none =>
                dsimp only
                exact ih _ seen h
          · -- token with the flag already set
            by_cases htk : sseHasToolSub (streamTokenM cm0.content) = true
            · rw [clientOf_cons_pass htk]
              have ihr := ih ⟨st.te, st.completed, st.flag,
                some { cm0 with run_id := some rid, thread_id := some tid }⟩
                (streamTokenM cm0.content :: seen) (fun kv hkv =>
                  List.mem_cons_of_mem _ (h kv hkv))
              refine ⟨?_, ?_, fun hn => ihr.2.2 hn⟩
              · rw [completePrec]
                rw [if_neg (by simp [streamTokenM])]
                simpa using ihr.1
              · rw [← rev_cons_append]
                exact ihr.2.1
            · rw [clientOf_cons_drop (by simpa using htk)]
              exact ih _ seen h
          · -- stream_start plus token, flag not yet set
            rw [clientOf_cons_drop sseHasToolSub_streamStart]
            by_cases htk : sseHasToolSub (streamTokenM cm0.content) = true
            · rw [clientOf_cons_pass htk]
              have ihr := ih ⟨st.te, st.completed, true,
                some { cm0 with run_id := some rid, thread_id := some tid }⟩
                (streamTokenM cm0.content :: seen) (fun kv hkv =>
                  List.mem_cons_of_mem _ (h kv hkv))
              refine ⟨?_, ?_, fun hn => ihr.2.2 hn⟩
              · rw [completePrec]
                rw [if_neg (by simp [streamTokenM])]
                simpa using ihr.1
              · rw [← rev_cons_append]
                exact ihr.2.1
            · rw [clientOf_cons_drop (by simpa using htk)]
              exact ih _ seen h
          · exact ih _ seen h
      | error e =>
          dsimp only
          cases hl : st.lastChat with
          | none =>
              dsimp only
              split_ifs with hf
              · exact ⟨rfl, by simpa [clientOf] using h, fun hn => hn⟩
              · rw [clientOf_cons_drop sseHasToolSub_streamStart]
                exact ⟨rfl, by simpa [clientOf] using h, fun hn => hn⟩
          | some prev =>
              dsimp only
              have hpre : ∀ fl : Bool, clientOf
                  (if fl then [] else [(streamStartM, true)]) = [] := by
                intro fl
                cases fl
                · simp only [Bool.false_eq_true, if_false]
                  rw [clientOf_cons_drop sseHasToolSub_streamStart]
                  rfl
                · rfl
              rw [clientOf_append, hpre, List.nil_append,
                clientOf_cons_drop sseHasToolSub_genericError]
              cases htcp : prev.tool_call_id with
              | some pid =>
                  dsimp only
                  by_cases hin : (teLookup st.te pid).isSome = true
                  · rw [if_pos hin]
                    have hsub : TeStarts (teRemove st.te pid) seen :=
                      fun kv hkv => h kv (teRemove_subset hkv)
                    have ihr := ih ⟨teRemove st.te pid, st.completed, true,
                      some prev⟩ seen hsub
                    exact ⟨ihr.1, ihr.2.1, fun hn => ihr.2.2 (teRemove_nodup hn)⟩
                  · rw [if_neg hin]
                    exact ih _ seen h
              | none =>
                  dsimp only
                  exact ih _ seen h

theorem messages_chunk_types (rid tid uin : String) (isAIChunk : Bool)
    (content : MsgContent) (tags : List String) (st : MGSt) :
    ∀ m ∈ (runEvent rid tid uin (.messages isAIChunk content tags) st).1,
      m = streamStartM ∨ ∃ t, m = streamTokenM t := by
  intro m hm
  rw [runEvent] at hm
  by_cases hskip : tags.contains "skip_stream" = true
  · rw [if_pos hskip] at hm; simp at hm
  · rw [if_neg hskip] at hm
    by_cases hai : isAIChunk = true
    · rw [if_neg (not_not_intro hai)] at hm
      cases hrc : remove_tool_calls content with
      | error e2 => rw [hrc] at hm; simp at hm
      | ok content2 =>
          rw [hrc] at hm
          dsimp only at hm
          by_cases ht : content2.truthy = true
          · rw [if_pos ht] at hm
            cases content2 with
            | s text =>
                dsimp only at hm
                by_cases hflag : st.flag = true
                · rw [if_pos hflag] at hm
                  simp only [List.nil_append, List.mem_singleton] at hm
                  subst hm; exact Or.inr ⟨_, rfl⟩
                · rw [if_neg hflag] at hm
                  simp only [List.cons_append, List.nil_append, List.mem_cons,
                    List.mem_singleton, List.not_mem_nil, or_false] at hm
                  rcases hm with h | h
                  · subst h; exact Or.inl rfl
                  · subst h; exact Or.inr ⟨_, rfl⟩
            | parts items2 =>
                dsimp only at hm
                by_cases hflag : st.flag = true
                · rw [if_pos hflag] at hm; simp at hm
                · rw [if_neg hflag] at hm
                  simp only [List.mem_singleton] at hm
                  subst hm; exact Or.inl rfl
          · rw [if_neg ht] at hm; simp at hm
    · rw [if_pos (by simpa using hai)] at hm; simp at hm

theorem custom_chunk_types (rid tid uin : String) (ev : CustomEvent) (st : MGSt) :
    ∀ m ∈ (runEvent rid tid uin (.custom ev) st).1,
      m = streamStartM ∨ (∃ s, m = errorM s) ∨
        (∃ ty d, ev = .evt ty d ∧ m = ⟨ty, d⟩) := by
  intro m hm
  cases ev with
  | exc text =>
      rw [runEvent] at hm
      by_cases hflag : st.flag = true
      · rw [if_pos hflag] at hm
        simp only [List.mem_singleton] at hm
        subst hm; exact Or.inr (Or.inl ⟨_, rfl⟩)
      · rw [if_neg hflag] at hm
        simp only [List.mem_cons, List.mem_singleton, List.not_mem_nil, or_false] at hm
        rcases hm with h | h
        · subst h; exact Or.inl rfl
        · subst h; exact Or.inr (Or.inl ⟨_, rfl⟩)
  | evt ty d =>
      rw [runEvent] at hm
      simp only [List.mem_singleton] at hm
      subst hm
      exact Or.inr (Or.inr ⟨ty, d, rfl, rfl⟩)

theorem processUpdateItems_prec (rid tid uin : String) (items : List UpdateItem) :
    ∀ (st : PSUSt) (seen : List SSEMessage), TeStarts st.te seen →
      completePrec seen (clientOf (processUpdateItems rid tid uin items st).1) = true ∧
      TeStarts (processUpdateItems rid tid uin items st).2.1.te
        ((clientOf (processUpdateItems rid tid uin items st).1).reverse ++ seen) ∧
      ((st.te.map Prod.fst).Nodup →
        (((processUpdateItems rid tid uin items st).2.1.te).map Prod.fst).Nodup) := by
  induction items with
  | nil =>
      intro st seen h
      refine ⟨rfl, ?_, fun hn => hn⟩
      simpa [clientOf, processUpdateItems] using h
  | cons item rest ih =>
      intro st seen h
      cases item with
      | interruptNode ints =>
          rw [processUpdateItems]
          dsimp only
          rw [clientOf_append, completePrec_append]
          have hnc : ∀ m ∈ clientOf (processInterrupts ints st.flag).1,
              ¬(m.type = "tool_execution_complete") := by
            intro m hm
            rcases List.mem_filter.mp hm with ⟨hmem, _⟩
            rcases List.mem_map.mp hmem with ⟨pr, hpr, hfst⟩
            rcases processInterrupts_types ints st.flag pr hpr with h2 | ⟨t, h2⟩ <;>
              · rw [← hfst, h2]; simp [streamStartM, streamTokenM]
          have ihr := ih ⟨st.te, st.completed, (processInterrupts ints st.flag).2,
            st.lastChat⟩
            ((clientOf (processInterrupts ints st.flag).1).reverse ++ seen)
            (TeStarts_mono h _)
          refine ⟨?_, ?_, fun hn => ihr.2.2 hn⟩
          · rw [noComplete_prec seen hnc]
            simpa using ihr.1
          · rw [List.reverse_append, List.append_assoc]
            exact ihr.2.1
      | node name msgs =>
          rw [processUpdateItems]
          dsimp only
          have hpm := processMessages_prec rid tid uin msgs st seen h
          cases herr : (processMessages rid tid uin msgs st).2.2 with
          | some e =>
              dsimp only
              exact hpm
          | none =>
              dsimp only
              rw [clientOf_append, completePrec_append]
              have ihr := ih (processMessages rid tid uin msgs st).2.1
                ((clientOf (processMessages rid tid uin msgs st).1).reverse ++ seen)
                hpm.2.1
              refine ⟨?_, ?_, fun hn => ihr.2.2 (hpm.2.2 hn)⟩
              · rw [hpm.1]
                simpa using ihr.1
              · rw [List.reverse_append, List.append_assoc]
                exact ihr.2.1

/-- For non-updates events the loop body leaves `tool_executions`
untouched. -/
theorem runEvent_nonupdates_te (rid tid uin : String) (e : StreamEvent) (st : MGSt)
    (hne : ∀ items, e ≠ .updates items) :
    (runEvent rid tid uin e st).2.1.te = st.te := by
  cases e with
  | updates items => exact absurd rfl (hne items)
  | notTuple => rfl
  | messages isAIChunk content tags =>
      rw [runEvent]
      by_cases hskip : tags.contains "skip_stream" = true
      · rw [if_pos hskip]
      · rw [if_neg hskip]
        by_cases hai : isAIChunk = true
        · rw [if_neg (not_not_intro hai)]
          cases hrc : remove_tool_calls content with
          | error e2 => rfl
          | ok content2 =>
              dsimp only
              by_cases ht : content2.truthy = true
              · rw [if_pos ht]
                cases content2 with
                | s text => dsimp only
                | parts items2 => dsimp only
              · rw [if_neg ht]
        · rw [if_pos (by simpa using hai)]
  | custom ev =>
      cases ev with
      | exc text =>
          rw [runEvent]
          by_cases hflag : st.flag = true
          · rw [if_pos hflag]
          · rw [if_neg hflag]
      | evt ty d => rfl

/-- Run-level tracker invariant: forwarded completion frames are always
preceded by their start frame, and the tracker key set stays
duplicate-free. -/
theorem runEvents_prec (rid tid uin : String) (events : List StreamEvent)
    (h : NoCustomType events "tool_execution_complete") :
    ∀ (st : MGSt) (seen : List SSEMessage), TeStarts st.te seen →
      completePrec seen (runEvents rid tid uin events st).1 = true ∧
      TeStarts (runEvents rid tid uin events st).2.1.te
        (((runEvents rid tid uin events st).1).reverse ++ seen) ∧
      ((st.te.map Prod.fst).Nodup →
        (((runEvents rid tid uin events st).2.1.te).map Prod.fst).Nodup) := by
  induction events with
  | nil =>
      intro st seen h2
      refine ⟨rfl, ?_, fun hn => hn⟩
      simpa [runEvents] using h2
  | cons e rest ih =>
      intro st seen hts
      have hrest : NoCustomType rest "tool_execution_complete" :=
        fun ty d hx => h ty d (List.mem_cons_of_mem e hx)
      have hone : ∀ (chunkSeen : List SSEMessage),
          completePrec chunkSeen (runEvent rid tid uin e st).1 = true ∧
          TeStarts (runEvent rid tid uin e st).2.1.te
            (((runEvent rid tid uin e st).1).reverse ++ chunkSeen ++ seen ++ []) = True ∨
          True := fun _ => Or.inr trivial
      clear hone
      cases he : e with
      | updates items =>
          have hps : processStreamUpdates items rid tid uin st.te st.flag st.completed =
              processUpdateItems rid tid uin items ⟨st.te, st.completed, st.flag, none⟩ :=
            rfl
          have hpu := processUpdateItems_prec rid tid uin items
            ⟨st.te, st.completed, st.flag, none⟩ seen hts
          rw [← hps] at hpu
          have hchunk : (runEvent rid tid uin (.updates items) st).1 =
              clientOf (processStreamUpdates items rid tid uin st.te st.flag
                st.completed).1 := by
            rw [runEvent]
            dsimp only
            rw [updatesFold_filter]
            rfl
          have hte : (runEvent rid tid uin (.updates items) st).2.1.te =
              (processStreamUpdates items rid tid uin st.te st.flag st.completed).2.1.te :=
            rfl
          have herr2 : (runEvent rid tid uin (.updates items) st).2.2 =
              (processStreamUpdates items rid tid uin st.te st.flag st.completed).2.2 :=
            rfl
          rw [runEvents]
          cases herr : (runEvent rid tid uin (.updates items) st).2.2 with
          | some er =>
              dsimp only
              rw [hchunk, hte]
              exact ⟨hpu.1, hpu.2.1, fun hn => hpu.2.2 hn⟩
          | none =>
              dsimp only
              have ihr := ih hrest (runEvent rid tid uin (.updates items) st).2.1
                ((clientOf (processStreamUpdates items rid tid uin st.te st.flag
                  st.completed).1).reverse ++ seen) (by rw [hte]; exact hpu.2.1)
              rw [completePrec_append, hchunk]
              refine ⟨?_, ?_, fun hn => ihr.2.2 (by rw [hte]; exact hpu.2.2 hn)⟩
              · rw [hpu.1]
                simpa using ihr.1
              · rw [List.reverse_append, List.append_assoc]
                exact ihr.2.1
      | notTuple =>
          rw [runEvents]
          dsimp only [runEvent]
          exact ih hrest st seen hts
      | messages isAIChunk content tags =>
          have hne : ∀ items, StreamEvent.messages isAIChunk content tags ≠
              .updates items := fun items hc => by cases hc
          have hte := runEvent_nonupdates_te rid tid uin
            (.messages isAIChunk content tags) st hne
          have hnc : ∀ m ∈ (runEvent rid tid uin (.messages isAIChunk content tags) st).1,
              ¬(m.type = "tool_execution_complete") := by
            intro m hm
            rcases messages_chunk_types rid tid uin isAIChunk content tags st m hm with
              hsh | ⟨tk, hsh⟩ <;>
              · rw [hsh]; simp [streamStartM, streamTokenM]
          rw [runEvents]
          cases herr : (runEvent rid tid uin (.messages isAIChunk content tags) st).2.2 with
          | some er =>
              dsimp only
              refine ⟨noComplete_prec seen hnc, ?_, ?_⟩
              · rw [hte]
                exact TeStarts_mono hts _
              · rw [hte]
                exact fun hn => hn
          | none =>
              dsimp only
              have ihr := ih hrest
                (runEvent rid tid uin (.messages isAIChunk content tags) st).2.1
                (((runEvent rid tid uin (.messages isAIChunk content tags) st).1).reverse ++
                  seen) (by rw [hte]; exact TeStarts_mono hts _)
              rw [completePrec_append]
              refine ⟨?_, ?_, fun hn => ihr.2.2 (by rw [hte]; exact hn)⟩
              · rw [noComplete_prec seen hnc]
                simpa using ihr.1
              · rw [List.reverse_append, List.append_assoc]
                exact ihr.2.1
      | custom ev =>
          have hne : ∀ items, StreamEvent.custom ev ≠ .updates items :=
            fun items hc => by cases hc
          have hte := runEvent_nonupdates_te rid tid uin (.custom ev) st hne
          have hnc : ∀ m ∈ (runEvent rid tid uin (.custom ev) st).1,
              ¬(m.type = "tool_execution_complete") := by
            intro m hm
            rcases custom_chunk_types rid tid uin ev st m hm with
              hsh | ⟨s, hsh⟩ | ⟨ty, d, hev2, hsh⟩
            · rw [hsh]; simp [streamStartM]
            · rw [hsh]; simp [errorM]
            · rw [hsh]
              have hty : ty ≠ "tool_execution_complete" :=
                h ty d (by rw [he, hev2]; exact List.mem_cons_self _ _)
              exact hty
          rw [runEvents]
          cases herr : (runEvent rid tid uin (.custom ev) st).2.2 with
          | some er =>
              dsimp only
              refine ⟨noComplete_prec seen hnc, ?_, ?_⟩
              · rw [hte]
                exact TeStarts_mono hts _
              · rw [hte]
                exact fun hn => hn
          | none =>
              dsimp only
              have ihr := ih hrest (runEvent rid tid uin (.custom ev) st).2.1
                (((runEvent rid tid uin (.custom ev) st).1).reverse ++ seen)
                (by rw [hte]; exact TeStarts_mono hts _)
              rw [completePrec_append]
              refine ⟨?_, ?_, fun hn => ihr.2.2 (by rw [hte]; exact hn)⟩
              · rw [noComplete_prec seen hnc]
                simpa using ihr.1
              · rw [List.reverse_append, List.append_assoc]
                exact ihr.2.1

/-- Tracker key sets stay duplicate-free over a whole run, for any event
sequence. -/
theorem runEvents_te_nodup (rid tid uin : String) (events : List StreamEvent) :
    ∀ st : MGSt, (st.te.map Prod.fst).Nodup →
      (((runEvents rid tid uin events st).2.1.te).map Prod.fst).Nodup := by
  induction events with
  | nil => intro st hn; simpa [runEvents] using hn
  | cons e rest ih =>
      intro st hn
      have hone : (((runEvent rid tid uin e st).2.1.te).map Prod.fst).Nodup := by
        cases e with
        | updates items =>
            have hseen : TeStarts st.te
                (st.te.map fun kv => toolStartM kv.2.name kv.2.params) :=
              fun kv hkv => List.mem_map.mpr ⟨kv, hkv, rfl⟩
            have hpu := processUpdateItems_prec rid tid uin items
              ⟨st.te, st.completed, st.flag, none⟩ _ hseen
            exact hpu.2.2 hn
        | notTuple => exact hn
        | messages isAIChunk content tags =>
            rw [runEvent_nonupdates_te rid tid uin _ st (fun items hc => by cases hc)]
            exact hn
        | custom ev =>
            rw [runEvent_nonupdates_te rid tid uin _ st (fun items hc => by cases hc)]
            exact hn
      rw [runEvents]
      cases herr : (runEvent rid tid uin e st).2.2 with
      | some er =>
          dsimp only
          exact hone
      | none =>
          dsimp only
          exact ih _ hone

theorem exceptChunk_noComplete (fl : Bool) (er : String) :
    ∀ m ∈ exceptChunk fl er, ¬(m.type = "tool_execution_complete") := by
  intro m hm
  cases fl
  · simp only [exceptChunk, Bool.false_eq_true, if_false, List.cons_append,
      List.nil_append, List.mem_cons, List.mem_singleton, List.not_mem_nil,
      or_false] at hm
    rcases hm with h | h <;> subst h <;> simp [streamStartM, errorM]
  · simp only [exceptChunk, if_true, List.nil_append, List.mem_singleton] at hm
    subst hm
    simp [errorM]

theorem finallyChunk_noComplete (fl : Bool) (tid : String) :
    ∀ m ∈ finallyChunk fl tid, ¬(m.type = "tool_execution_complete") := by
  intro m hm
  cases fl
  · simp [finallyChunk] at hm
  · simp only [finallyChunk, if_true, List.mem_singleton] at hm
    subst hm
    simp [streamEndM]

theorem saverHistory_store_self (cp : SaverState) (t : String) (msgs : List LCMessage) :
    saverHistory (saverStore cp t msgs) t = msgs := by
  induction cp with
  | nil => simp [saverStore, saverHistory]
  | cons kv rest ih =>
      obtain ⟨k, v⟩ := kv
      by_cases hk : k = t <;> simp [saverStore, saverHistory, hk, ih]

theorem saverHistory_store_other (cp : SaverState) (t t2 : String) (msgs : List LCMessage)
    (h : t2 ≠ t) : saverHistory (saverStore cp t2 msgs) t = saverHistory cp t := by
  induction cp with
  | nil => simp [saverStore, saverHistory, h]
  | cons kv rest ih =>
      obtain ⟨k, v⟩ := kv
      by_cases hk : k = t2
      · subst hk
        simp [saverStore, saverHistory, h]
      · simp [saverStore, saverHistory, hk, ih]

theorem splitNL_ne_nil (l : List Char) : splitNL l ≠ [] := by
  induction l with
  | nil => simp [splitNL]
  | cons c rest ih =>
      rw [splitNL]
      split
      · simp
      · rcases h : splitNL rest with _ | ⟨x, xs⟩
        · simp
        · simp [h]

theorem splitNL_append_nl (a b : List Char) (h : '\n' ∉ a) :
    splitNL (a ++ '\n' :: b) = a :: splitNL b := by
  induction a with
  | nil => simp [splitNL]
  | cons c rest ih =>
      have hc : ¬c = '\n' := by
        intro hc
        exact h (hc ▸ List.mem_cons_self c rest)
      have hrest : '\n' ∉ rest := fun hm => h (List.mem_cons_of_mem c hm)
      rw [List.cons_append, splitNL, if_neg hc, ih hrest]

theorem hexDigitCh_ne_nl (n : Nat) (h : n < 16) : hexDigitCh n ≠ '\n' := by
  interval_cases n <;> decide

theorem hex4_nl (n : Nat) : '\n' ∉ (hex4 n).data := by
  have h1 := hexDigitCh_ne_nl (n / 4096 % 16) (Nat.mod_lt _ (by norm_num))
  have h2 := hexDigitCh_ne_nl (n / 256 % 16) (Nat.mod_lt _ (by norm_num))
  have h3 := hexDigitCh_ne_nl (n / 16 % 16) (Nat.mod_lt _ (by norm_num))
  have h4 := hexDigitCh_ne_nl (n % 16) (Nat.mod_lt _ (by norm_num))
  simp only [hex4, String.mk, List.mem_cons, List.not_mem_nil]
  push_neg
  exact ⟨fun he => h1 he.symm, fun he => h2 he.symm, fun he => h3 he.symm,
    fun he => h4 he.symm, not_false⟩

theorem escChar_nl (c : Char) : '\n' ∉ (escChar c).data := by
  rw [escChar]
  split_ifs with h1 h2 h3 h4 h5 h6
  · decide
  · decide
  · decide
  · decide
  · decide
  · rw [String.data_append]
    intro hm
    rcases List.mem_append.mp hm with hm | hm
    · revert hm
      decide
    · exact hex4_nl c.toNat hm
  · intro he
    have hd : (String.singleton c).data = [c] := rfl
    rw [hd, List.mem_singleton] at he
    exact h3 he.symm

theorem natDec_nl (n : Nat) : '\n' ∉ natDec n := by
  induction n using Nat.strong_induction_on with
  | _ n ih =>
      rw [natDec]
      split
      · next h =>
          simp only [List.mem_singleton]
          intro he
          exact hexDigitCh_ne_nl n (by omega) he.symm
      · next h =>
          intro hm
          rcases List.mem_append.mp hm with hm | hm
          · exact ih (n / 10) (Nat.div_lt_self (by omega) (by omega)) hm
          · simp only [List.mem_singleton] at hm
            exact hexDigitCh_ne_nl (n % 10) (by omega) hm.symm

theorem intDec_nl (i : Int) : '\n' ∉ (intDec i).data := by
  rw [intDec]
  split
  · rw [String.data_append]
    intro hm
    rcases List.mem_append.mp hm with hm | hm
    · revert hm; decide
    · exact natDec_nl _ hm
  · exact natDec_nl _

theorem escList_nl (l : List Char) : '\n' ∉ (escList l).data := by
  induction l with
  | nil => simp [escList]
  | cons c rest ih =>
      rw [escList, String.data_append]
      intro hm
      rcases List.mem_append.mp hm with hm | hm
      · exact escChar_nl c hm
      · exact ih hm

theorem escString_nl (s : String) : '\n' ∉ (escString s).data :=
  escList_nl s.data

mutual

theorem jsonDumps_nl : ∀ j, '\n' ∉ (jsonDumps j).data
  | .null => by decide
  | .bool true => by decide
  | .bool false => by decide
  | .num n => by
      rw [jsonDumps]
      exact intDec_nl n
  | .str s => by
      rw [jsonDumps]
      intro hm
      rw [String.data_append, String.data_append] at hm
      rcases List.mem_append.mp hm with hm | hm
      · rcases List.mem_append.mp hm with hm | hm
        · revert hm; decide
        · exact escString_nl s hm
      · revert hm; decide
  | .arr items => by
      rw [jsonDumps]
      intro hm
      rw [String.data_append, String.data_append] at hm
      rcases List.mem_append.mp hm with hm | hm
      · rcases List.mem_append.mp hm with hm | hm
        · revert hm; decide
        · exact jsonDumpsArr_nl items hm
      · revert hm; decide
  | .obj fields => by
      rw [jsonDumps]
      intro hm
      rw [String.data_append, String.data_append] at hm
      rcases List.mem_append.mp hm with hm | hm
      · rcases List.mem_append.mp hm with hm | hm
        · revert hm; decide
        · exact jsonDumpsObj_nl fields hm
      · revert hm; decide

theorem jsonDumpsArr_nl : ∀ l, '\n' ∉ (jsonDumpsArr l).data
  | [] => by decide
  | [x] => by
      rw [jsonDumpsArr]
      exact jsonDumps_nl x
  | x :: y :: rest => by
      rw [jsonDumpsArr]
      intro hm
      rw [String.data_append, String.data_append] at hm
      rcases List.mem_append.mp hm with hm | hm
      · rcases List.mem_append.mp hm with hm | hm
        · exact jsonDumps_nl x hm
        · revert hm; decide
      · exact jsonDumpsArr_nl (y :: rest) hm

theorem jsonDumpsObj_nl : ∀ l, '\n' ∉ (jsonDumpsObj l).data
  | [] => by decide
  | [(k, v)] => by
      rw [jsonDumpsObj]
      intro hm
      rw [String.data_append, String.data_append, String.data_append] at hm
      rcases List.mem_append.mp hm with hm | hm
      · rcases List.mem_append.mp hm with hm | hm
        · rcases List.mem_append.mp hm with hm | hm
          · revert hm; decide
          · exact escString_nl k hm
        · revert hm; decide
      · exact jsonDumps_nl v hm
  | (k, v) :: kv :: rest => by
      rw [jsonDumpsObj]
      intro hm
      rw [String.data_append, String.data_append, String.data_append,
        String.data_append, String.data_append] at hm
      rcases List.mem_append.mp hm with hm | hm
      · rcases List.mem_append.mp hm with hm | hm
        · rcases List.mem_append.mp hm with hm | hm
          · rcases List.mem_append.mp hm with hm | hm
            · rcases List.mem_append.mp hm with hm | hm
              · revert hm; decide
              · exact escString_nl k hm
            · revert hm; decide
          · exact jsonDumps_nl v hm
        · revert hm; decide
      · exact jsonDumpsObj_nl (kv :: rest) hm

end

/-! ## Claim C1 — stream_end emission -/

/-- Claim C1, counterexample: a run whose stream is opened by the error path
(main.py:578-579 yields `stream_start` without setting `stream_started`)
does not terminate with `stream_end` — the trace is `stream_start`, `error`
and nothing else, because the `finally` block only emits `stream_end` when
the flag is set. -/
theorem C1_counterexample :
    messageGenerator [] (.raisedSource "boom") "t" "r" "hi" =
      [streamStartM, errorM "boom"] ∧
    "stream_start" ∈ (messageGenerator [] (.raisedSource "boom") "t" "r" "hi").map
      SSEMessage.type ∧
    "stream_end" ∉ (messageGenerator [] (.raisedSource "boom") "t" "r" "hi").map
      SSEMessage.type := by
  refine ⟨rfl, ?_, ?_⟩ <;> decide

/-- Claim C1, amended: provided no custom-channel event forges a
`stream_end` type, a `stream_end` frame (carrying the thread identifier) is
emitted exactly when the `stream_started` flag is true at termination —
exactly once and as the last frame; the flag, not the emission of
`stream_start`, is what gates it, and the error path emits `stream_start`
without setting the flag, so a run opened only by the error path emits no
`stream_end`. -/
theorem C1_stream_end (events : List StreamEvent) (terminal : Terminal)
    (tid rid uin : String) (h : NoCustomType events "stream_end") :
    countType "stream_end" (messageGenerator events terminal tid rid uin) =
      (if (runEvents rid tid uin events initMGSt).2.1.flag then 1 else 0) ∧
    ((runEvents rid tid uin events initMGSt).2.1.flag = true →
      (messageGenerator events terminal tid rid uin).getLast? =
        some (streamEndM tid)) := by
  have hbody := runEvents_no_type rid tid uin events "stream_end" (by decide) (by decide)
    (by decide) (by decide) (by decide) h initMGSt
  have hbody0 : countType "stream_end" (runEvents rid tid uin events initMGSt).1 = 0 :=
    countType_eq_zero hbody
  have hexc : ∀ fl (e : String), countType "stream_end" (exceptChunk fl e) = 0 := by
    intro fl e
    apply countType_eq_zero
    intro m hm
    cases fl
    · simp only [exceptChunk, Bool.false_eq_true, if_false, List.cons_append,
        List.nil_append, List.mem_cons, List.mem_singleton, List.not_mem_nil,
        or_false] at hm
      rcases hm with hm | hm <;> subst hm
      · decide
      · simp [errorM]
    · simp only [exceptChunk, if_true, List.nil_append, List.mem_singleton] at hm
      subst hm
      simp [errorM]
  have hfin : ∀ fl, countType "stream_end" (finallyChunk fl tid) =
      (if fl then 1 else 0) := by
    intro fl
    cases fl <;> simp [finallyChunk, countType, streamEndM]
  have hlast : ∀ (pre : List SSEMessage) (fl : Bool), fl = true →
      (pre ++ finallyChunk fl tid).getLast? = some (streamEndM tid) := by
    intro pre fl hfl
    subst hfl
    rw [finallyChunk, if_pos rfl]
    exact List.getLast?_concat _
  rw [messageGenerator.eq_def]
  dsimp only
  cases herr : (runEvents rid tid uin events initMGSt).2.2 with
  | some e =>
      simp only
      constructor
      · rw [countType_append, countType_append, hbody0, hexc, hfin]
        simp
      · intro hfl
        exact hlast _ _ hfl
  | none =>
      simp only
      cases terminal with
      | exhausted =>
          simp only
          refine ⟨?_, fun hfl => hlast _ _ hfl⟩
          rw [countType_append, hbody0, hfin]
          simp
      | raisedSource e =>
          simp only
          constructor
          · rw [countType_append, countType_append, hbody0, hexc, hfin]
            simp
          · intro hfl
            exact hlast _ _ hfl
      | cancelled =>
          simp only
          refine ⟨?_, fun hfl => hlast _ _ hfl⟩
          rw [countType_append, hbody0, hfin]
          simp

/-- Claim C1, witness: the amended statement at a concrete one-token run
that ends cancelled with the stream open. -/
theorem C1_stream_end_witness :
    countType "stream_end"
        (messageGenerator [.messages true (.s "hello") []] .cancelled "t" "r" "hi") =
      (if (runEvents "r" "t" "hi" [.messages true (.s "hello") []] initMGSt).2.1.flag
       then 1 else 0) ∧
    ((runEvents "r" "t" "hi" [.messages true (.s "hello") []] initMGSt).2.1.flag = true →
      (messageGenerator [.messages true (.s "hello") []] .cancelled "t" "r" "hi").getLast? =
        some (streamEndM "t")) :=
  C1_stream_end [.messages true (.s "hello") []] .cancelled "t" "r" "hi"
    (by intro ty d hmem; simp at hmem)

/-! ## Claim C2 — stream_start emission -/

/-- Claim C2, counterexample: the weather scenario.  The run's first visible
frame is a `tool_execution_start`, but no `stream_start` precedes it — tool
frames are forwarded without opening the stream (main.py:403-414, 536-541),
and `stream_start` only appears later, before the first token. -/
theorem C2_counterexample :
    messageGenerator
        [.updates [.node "agent"
            [.ai (.s "") [⟨"call1", "get_weather", .obj [("ville", .str "Paris")]⟩]]],
         .updates [.node "tools" [.tool (.s "sunny") "call1"]],
         .messages true (.s "Il fait beau") []]
        .exhausted "t" "r" "hi" =
      [toolStartM "get_weather" (.obj [("ville", .str "Paris")]),
       toolCompleteM "get_weather" (.obj [("ville", .str "Paris")]),
       streamStartM,
       streamTokenM "Il fait beau",
       streamEndM "t"] ∧
    (messageGenerator
        [.updates [.node "agent"
            [.ai (.s "") [⟨"call1", "get_weather", .obj [("ville", .str "Paris")]⟩]]],
         .updates [.node "tools" [.tool (.s "sunny") "call1"]],
         .messages true (.s "Il fait beau") []]
        .exhausted "t" "r" "hi").map SSEMessage.type =
      ["tool_execution_start", "tool_execution_complete", "stream_start",
       "stream_token", "stream_end"] := by
  exact ⟨rfl, rfl⟩

/-- Claim C2, amended: provided no custom-channel event forges a
`stream_start` type, at most one `stream_start` frame is emitted per run,
and every emitted `stream_start` is immediately followed by a `stream_token`
or `error` frame; a run with no events emits nothing at all.  The original
claim fails in two ways the counterexample shows: tool frames do not open
the stream (so `stream_start` does not precede a leading
`tool_execution_start`), and the internally-consumed updates channel can set
the opened flag so that tokens (and `stream_end`) flow with no
`stream_start` at all. -/
theorem C2_stream_start (events : List StreamEvent) (terminal : Terminal)
    (tid rid uin : String) (h : NoCustomType events "stream_start") :
    countType "stream_start" (messageGenerator events terminal tid rid uin) ≤ 1 ∧
    startAdjFby (messageGenerator events terminal tid rid uin) false = true ∧
    messageGenerator [] .exhausted tid rid uin = [] ∧
    messageGenerator [] .cancelled tid rid uin = [] := by
  have hfacts := runEvents_start_facts rid tid uin events h initMGSt
  have hadj := runEvents_adj rid tid uin events h initMGSt
  have hexcCount : ∀ (fl : Bool) (er : String),
      countType "stream_start" (exceptChunk fl er) = (if fl then 0 else 1) := by
    intro fl er
    cases fl <;> simp [exceptChunk, countType, streamStartM, errorM]
  have hfinCount : ∀ fl : Bool, countType "stream_start" (finallyChunk fl tid) = 0 := by
    intro fl
    cases fl <;> simp [finallyChunk, countType, streamEndM]
  have hcount : ∀ er : String,
      countType "stream_start" ((runEvents rid tid uin events initMGSt).1 ++
        exceptChunk (runEvents rid tid uin events initMGSt).2.1.flag er ++
        finallyChunk (runEvents rid tid uin events initMGSt).2.1.flag tid) ≤ 1 := by
    intro er
    rw [countType_append, countType_append, hexcCount, hfinCount]
    cases hfl : (runEvents rid tid uin events initMGSt).2.1.flag with
    | false =>
        have hF : countType "stream_start" (runEvents rid tid uin events initMGSt).1 = 0 := by
          by_cases hge : 1 ≤ countType "stream_start" (runEvents rid tid uin events initMGSt).1
          · rw [hfacts.2.2 hge] at hfl; cases hfl
          · omega
        simp [hF]
    | true =>
        have hF : countType "stream_start" (runEvents rid tid uin events initMGSt).1 ≤ 1 := by
          simpa using hfacts.1
        simpa using hF
  have hcount2 : countType "stream_start" ((runEvents rid tid uin events initMGSt).1 ++
      finallyChunk (runEvents rid tid uin events initMGSt).2.1.flag tid) ≤ 1 := by
    rw [countType_append, hfinCount]
    have hF : countType "stream_start" (runEvents rid tid uin events initMGSt).1 ≤ 1 := by
      simpa using hfacts.1
    simpa using hF
  have hadjFull : ∀ er : String,
      (runEvents rid tid uin events initMGSt).2.2 = none →
      startAdjFby ((runEvents rid tid uin events initMGSt).1 ++
        exceptChunk (runEvents rid tid uin events initMGSt).2.1.flag er ++
        finallyChunk (runEvents rid tid uin events initMGSt).2.1.flag tid) false = true := by
    intro er hnone
    rw [startAdjFby_append, finallyChunk_adj, startAdjFby_append,
      startAdjFby_any (hadj.1 hnone), startAdjFby_any (exceptChunk_adj _ _)]
    rfl
  rw [messageGenerator.eq_def]
  dsimp only
  cases herr : (runEvents rid tid uin events initMGSt).2.2 with
  | some e =>
      simp only
      refine ⟨hcount e, ?_, rfl, rfl⟩
      rw [startAdjFby_append, finallyChunk_adj, startAdjFby_any (hadj.2 e e herr)]
      rfl
  | none =>
      simp only
      cases terminal with
      | exhausted =>
          refine ⟨hcount2, ?_, rfl, rfl⟩
          rw [startAdjFby_append, finallyChunk_adj, startAdjFby_any (hadj.1 herr)]
          rfl
      | raisedSource e =>
          simp only
          exact ⟨hcount e, hadjFull e herr, rfl, rfl⟩
      | cancelled =>
          refine ⟨hcount2, ?_, rfl, rfl⟩
          rw [startAdjFby_append, finallyChunk_adj, startAdjFby_any (hadj.1 herr)]
          rfl

/-- Claim C2, witness: the amended statement at the weather scenario. -/
theorem C2_stream_start_witness :
    countType "stream_start"
        (messageGenerator
          [.updates [.node "agent"
              [.ai (.s "") [⟨"call1", "get_weather", .obj [("ville", .str "Paris")]⟩]]],
           .updates [.node "tools" [.tool (.s "sunny") "call1"]],
           .messages true (.s "Il fait beau") []]
          .exhausted "t" "r" "hi") ≤ 1 ∧
    startAdjFby
        (messageGenerator
          [.updates [.node "agent"
              [.ai (.s "") [⟨"call1", "get_weather", .obj [("ville", .str "Paris")]⟩]]],
           .updates [.node "tools" [.tool (.s "sunny") "call1"]],
           .messages true (.s "Il fait beau") []]
          .exhausted "t" "r" "hi") false = true ∧
    messageGenerator [] .exhausted "t" "r" "hi" = [] ∧
    messageGenerator [] .cancelled "t" "r" "hi" = [] :=
  C2_stream_start
    [.updates [.node "agent"
        [.ai (.s "") [⟨"call1", "get_weather", .obj [("ville", .str "Paris")]⟩]]],
     .updates [.node "tools" [.tool (.s "sunny") "call1"]],
     .messages true (.s "Il fait beau") []]
    .exhausted "t" "r" "hi"
    (by intro ty d hmem; simp at hmem)

/-! ## Claim C6 — updates-channel forwarding -/

/-- Claim C6, counterexample: an updates-channel AI message whose text is
`"event: tool_execution_start"` produces a `stream_token` frame whose
rendered SSE text contains the filter substring, so the driver forwards it
to the client (main.py:536-541 filters by substring on the rendered text,
not by frame type) — a `stream_token` frame from the updates channel
reaches the client. -/
theorem C6_counterexample :
    messageGenerator
        [.updates [.node "agent" [.ai (.s "event: tool_execution_start") []]]]
        .exhausted "t" "r" "hi" =
      [streamTokenM "event: tool_execution_start", streamEndM "t"] ∧
    (streamTokenM "event: tool_execution_start").type = "stream_token" :=
  ⟨rfl, rfl⟩

/-- Claim C6, amended: the driver forwards an updates-channel frame exactly
when its rendered SSE text contains the substring
`event: tool_execution_start` or `event: tool_execution_complete`; tool
frames always match, `stream_start` frames and the per-message generic
`error` frames never match, but a `stream_token` frame whose token text
contains one of the substrings is also forwarded. -/
theorem C6_updates_forwarding :
    (∀ (pairs : List (SSEMessage × Bool)) (flag : Bool),
      (updatesFold pairs flag).1 = (pairs.map Prod.fst).filter sseHasToolSub) ∧
    (∀ (n : String) (p : Json),
      sseHasToolSub (toolStartM n p) = true ∧ sseHasToolSub (toolCompleteM n p) = true) ∧
    sseHasToolSub streamStartM = false ∧
    sseHasToolSub (errorM "Unexpected error") = false ∧
    sseHasToolSub (streamTokenM "event: tool_execution_start") = true :=
  ⟨updatesFold_filter,
   fun n p => ⟨sseHasToolSub_toolStart n p, sseHasToolSub_toolComplete n p⟩,
   sseHasToolSub_streamStart, sseHasToolSub_genericError, by decide⟩

/-! ## Claim C4 — per-message translation failures -/

/-- Claim C4: evaluation at the failing input.  A state-update event whose
first message is of an unsupported class makes `langchain_to_chat_message`
raise before `chat_message` was ever assigned in this
`process_stream_updates` call; the per-message handler then evaluates
`hasattr(chat_message, "tool_call_id")` (main.py:453) on the unbound local
and raises, aborting the update-processing loop: no generic
`"Unexpected error"` frame is emitted, the following message (`"second"`)
is never processed, and the stream ends through the driver's outer handler
with the leaked internal error text. -/
theorem C4_translation_abort :
    processStreamUpdates [.node "agent" [.other "FakeMessage", .human (.s "second")]]
        "r" "t" "hi" [] false [] =
      ([(streamStartM, true)], ⟨[], [], true, none⟩,
       some "local variable chat_message referenced before assignment") ∧
    messageGenerator [.updates [.node "agent" [.other "FakeMessage", .human (.s "second")]]]
        .exhausted "t" "r" "hi" =
      [errorM "local variable chat_message referenced before assignment",
       streamEndM "t"] ∧
    errorM "Unexpected error" ∉
      messageGenerator [.updates [.node "agent" [.other "FakeMessage", .human (.s "second")]]]
        .exhausted "t" "r" "hi" := by
  refine ⟨rfl, rfl, ?_⟩
  decide

/-! ## Claim C7 — the tool-call tracker -/

/-- Claim C7: (1) for every run the tracker holds at most one pending entry
per call identifier (the key set of `tool_executions` is duplicate-free);
(2) processing a tool-result message emits a `tool_execution_complete` frame
if and only if a pending entry with the matching call identifier exists, in
which case the entry is removed and the frame carries the recorded name and
arguments, while a completion with no matching entry emits nothing and does
not abort; (3) provided no custom event forges a `tool_execution_complete`
type, every completion frame of the client trace is preceded by a
`tool_execution_start` frame carrying the same name and arguments. -/
theorem C7_tool_tracker :
    (∀ (rid tid uin : String) (events : List StreamEvent),
      (((runEvents rid tid uin events initMGSt).2.1.te).map Prod.fst).Nodup) ∧
    (∀ (rid tid uin callid : String) (c : MsgContent) (rest : List LCMessage)
        (st : PSUSt) (info : ToolInfo),
      (teLookup st.te callid = some info →
        processMessages rid tid uin (.tool c callid :: rest) st =
          ((toolCompleteM info.name info.params, st.flag) ::
            (processMessages rid tid uin rest
              ⟨teRemove st.te callid, st.completed ++ [info.name], st.flag,
               some ⟨"tool", convert_message_content_to_string c, [], some callid,
                 some rid, some tid⟩⟩).1,
           (processMessages rid tid uin rest
             ⟨teRemove st.te callid, st.completed ++ [info.name], st.flag,
              some ⟨"tool", convert_message_content_to_string c, [], some callid,
                some rid, some tid⟩⟩).2.1,
           (processMessages rid tid uin rest
             ⟨teRemove st.te callid, st.completed ++ [info.name], st.flag,
              some ⟨"tool", convert_message_content_to_string c, [], some callid,
                some rid, some tid⟩⟩).2.2)) ∧
      (teLookup st.te callid = none →
        processMessages rid tid uin (.tool c callid :: rest) st =
          processMessages rid tid uin rest
            ⟨st.te, st.completed, st.flag,
             some ⟨"tool", convert_message_content_to_string c, [], some callid,
               some rid, some tid⟩⟩)) ∧
    (∀ (events : List StreamEvent) (terminal : Terminal) (tid rid uin : String),
      NoCustomType events "tool_execution_complete" →
      completePrec [] (messageGenerator events terminal tid rid uin) = true) := by
  refine ⟨?_, ?_, ?_⟩
  · intro rid tid uin events
    exact runEvents_te_nodup rid tid uin events initMGSt (by simp [initMGSt])
  · intro rid tid uin callid c rest st info
    constructor
    · intro hlk
      rw [processMessages]
      dsimp only [langchain_to_chat_message]
      rw [if_neg (by simp), if_neg (by simp), if_pos rfl]
      rw [hlk]
    · intro hlk
      rw [processMessages]
      dsimp only [langchain_to_chat_message]
      rw [if_neg (by simp), if_neg (by simp), if_pos rfl]
      rw [hlk]
  · intro events terminal tid rid uin h
    have hinit : TeStarts initMGSt.te ([] : List SSEMessage) := by
      intro kv hkv
      simp [initMGSt] at hkv
    have hrun := runEvents_prec rid tid uin events h initMGSt [] hinit
    have hbody : completePrec [] (runEvents rid tid uin events initMGSt).1 = true :=
      hrun.1
    rw [messageGenerator.eq_def]
    dsimp only
    cases herr : (runEvents rid tid uin events initMGSt).2.2 with
    | some e =>
        dsimp only
        rw [completePrec_append, completePrec_append, hbody,
          noComplete_prec _ (exceptChunk_noComplete _ e),
          noComplete_prec _ (finallyChunk_noComplete _ tid)]
        rfl
    | none =>
        dsimp only
        cases terminal with
        | exhausted =>
            rw [completePrec_append, hbody,
              noComplete_prec _ (finallyChunk_noComplete _ tid)]
            rfl
        | raisedSource e =>
            dsimp only
            rw [completePrec_append, completePrec_append, hbody,
              noComplete_prec _ (exceptChunk_noComplete _ e),
              noComplete_prec _ (finallyChunk_noComplete _ tid)]
            rfl
        | cancelled =>
            rw [completePrec_append, hbody,
              noComplete_prec _ (finallyChunk_noComplete _ tid)]
            rfl

/-- Claim C7, witness: the weather scenario — the tracker key set of the
finished run is duplicate-free, the resolve equations at a concrete tracker,
and the preceded-by-start check over the concrete client trace. -/
theorem C7_tool_tracker_witness :
    (((runEvents "r" "t" "hi"
        [.updates [.node "agent"
            [.ai (.s "") [⟨"call1", "get_weather", .obj [("ville", .str "Paris")]⟩]]],
         .updates [.node "tools" [.tool (.s "sunny") "call1"]],
         .messages true (.s "Il fait beau") []] initMGSt).2.1.te).map Prod.fst).Nodup ∧
    teLookup [("call1", ⟨"get_weather", Json.null⟩)] "call1" =
      some ⟨"get_weather", Json.null⟩ ∧
    processMessages "r" "t" "hi" [.tool (.s "sunny") "call1"]
        ⟨[("call1", ⟨"get_weather", Json.null⟩)], [], false, none⟩ =
      ((toolCompleteM "get_weather" Json.null, false) ::
        (processMessages "r" "t" "hi" []
          ⟨teRemove [("call1", ⟨"get_weather", Json.null⟩)] "call1",
           [] ++ ["get_weather"], false,
           some ⟨"tool", convert_message_content_to_string (.s "sunny"), [],
             some "call1", some "r", some "t"⟩⟩).1,
       (processMessages "r" "t" "hi" []
         ⟨teRemove [("call1", ⟨"get_weather", Json.null⟩)] "call1",
          [] ++ ["get_weather"], false,
          some ⟨"tool", convert_message_content_to_string (.s "sunny"), [],
            some "call1", some "r", some "t"⟩⟩).2.1,
       (processMessages "r" "t" "hi" []
         ⟨teRemove [("call1", ⟨"get_weather", Json.null⟩)] "call1",
          [] ++ ["get_weather"], false,
          some ⟨"tool", convert_message_content_to_string (.s "sunny"), [],
            some "call1", some "r", some "t"⟩⟩).2.2) ∧
    completePrec []
      (messageGenerator
        [.updates [.node "agent"
            [.ai (.s "") [⟨"call1", "get_weather", .obj [("ville", .str "Paris")]⟩]]],
         .updates [.node "tools" [.tool (.s "sunny") "call1"]],
         .messages true (.s "Il fait beau") []] .exhausted "t" "r" "hi") = true :=
  ⟨C7_tool_tracker.1 "r" "t" "hi" _,
   rfl,
   (C7_tool_tracker.2.1 "r" "t" "hi" "call1" (.s "sunny") []
      ⟨[("call1", ⟨"get_weather", Json.null⟩)], [], false, none⟩
      ⟨"get_weather", Json.null⟩).1 rfl,
   C7_tool_tracker.2.2 _ .exhausted "t" "r" "hi"
     (by intro ty d hmem; simp at hmem)⟩

/-! ## Claim C8 — the SSE frame encoder -/

/-- Claim C8: for every event type (newline-free, as all seven recognized
types are) and optional content, `create_sse_data` produces exactly an
`event:` line with the type, a `data:` line with the JSON-serialized content
only when the content is non-null, and the blank-line terminator (the final
`""` entry is the artifact of splitting the trailing newline).  The encoder
is a total function, hence side-effect free and non-failing. -/
theorem C8_sse_encoder (ty : String) (c : Option Json) (h : '\n' ∉ ty.data) :
    linesOf (create_sse_data ⟨ty, c⟩) =
      ["event: " ++ ty] ++
        (match c with
         | none => []
         | some v => ["data: " ++ jsonDumps v]) ++ ["", ""] := by
  have hA : '\n' ∉ ("event: " ++ ty).data := by
    rw [String.data_append]
    intro hm
    rcases List.mem_append.mp hm with hm | hm
    · revert hm; decide
    · exact h hm
  cases c with
  | none =>
      have hdata : (create_sse_data ⟨ty, none⟩).data =
          ("event: " ++ ty).data ++ '\n' :: ['\n'] := by
        show (("event: " ++ ty ++ "\n") ++ "\n").data = _
        simp [String.data_append]
      rw [linesOf, hdata, splitNL_append_nl _ _ hA]
      rfl
  | some v =>
      have hB : '\n' ∉ ("data: " ++ jsonDumps v).data := by
        rw [String.data_append]
        intro hm
        rcases List.mem_append.mp hm with hm | hm
        · revert hm; decide
        · exact jsonDumps_nl v hm
      have hdata : (create_sse_data ⟨ty, some v⟩).data =
          ("event: " ++ ty).data ++
            '\n' :: (("data: " ++ jsonDumps v).data ++ '\n' :: ['\n']) := by
        show ((("event: " ++ ty ++ "\n") ++ "data: " ++ jsonDumps v ++ "\n") ++ "\n").data = _
        simp [String.data_append]
      rw [linesOf, hdata, splitNL_append_nl _ _ hA, splitNL_append_nl _ _ hB]
      rfl

/-- Claim C8, witness: the encoder at a concrete `stream_token` message. -/
theorem C8_sse_encoder_witness :
    '\n' ∉ ("stream_token" : String).data ∧
    linesOf (create_sse_data ⟨"stream_token", some (.obj [("token", .str "hi")])⟩) =
      ["event: " ++ "stream_token"] ++
        ["data: " ++ jsonDumps (.obj [("token", .str "hi")])] ++ ["", ""] :=
  ⟨by decide, C8_sse_encoder "stream_token" (some (.obj [("token", .str "hi")])) (by decide)⟩

/-! ## Claim C5 — interrupt events -/

/-- Claim C5, counterexample: a state-update event consisting of one
interrupt with empty content does not translate to zero frames — the code
(main.py:374-379) yields a `stream_token` frame carrying the empty content
unconditionally. -/
theorem C5_counterexample :
    (processStreamUpdates [.interruptNode [⟨""⟩]] "r" "t" "hi" [] false []).1 =
      [(streamTokenM "", false)] ∧
    (processStreamUpdates [.interruptNode [⟨""⟩]] "r" "t" "hi" [] false []).1 ≠ [] := by
  exact ⟨rfl, by decide⟩

/-- Claim C5, amended: translating an interrupt event with one interrupt
emits `stream_start` followed by a `stream_token` carrying the interrupt
content when the content is non-empty and the stream has not opened; in
every other case (empty content included) it still emits the `stream_token`
frame carrying the content, with the unchanged flag. -/
theorem C5_interrupt_translation (flag : Bool) (c rid tid uin : String)
    (te : ToolExec) (ct : List String) :
    (processStreamUpdates [.interruptNode [⟨c⟩]] rid tid uin te flag ct).1 =
      if flag = false ∧ c ≠ "" then [(streamStartM, true), (streamTokenM c, true)]
      else [(streamTokenM c, flag)] := by
  by_cases hc : c = "" <;> cases flag <;>
    simp [processStreamUpdates, processUpdateItems, processInterrupts, hc]

/-! ## Claim C9 — cancellation of a single-shot invoke -/

/-- Claim C9: an `asyncio.CancelledError` during the awaited agent execution
of `invoke` is caught (main.py:248-254) and converted into the normal
structured response whose content is the fixed text
`"Generation was stopped."`, together with the run's thread and run ids. -/
theorem C9_invoke_cancelled (tid rid : String) :
    invokePost .cancelled tid rid = .ok "Generation was stopped." tid rid := rfl

/-! ## Claim C3 — unhandled exception while driving the stream -/

/-- Claim C3, counterexample: an exception raised by the event source before
any frame was emitted yields an error frame whose content is `str(e)`
(main.py:580) — the exception's own text, not a generic message: internal
details are leaked to the client. -/
theorem C3_counterexample :
    messageGenerator [] (.raisedSource "ZeroDivisionError: division by zero") "t" "r" "m" =
      [streamStartM, errorM "ZeroDivisionError: division by zero"] := rfl

/-- Claim C3, amended: on an unhandled exception from the event source the
driver emits a `stream_start` frame when the stream is not yet open (without
marking it open) and exactly one additional `error` frame — but its content
is `str(e)`, the exception's own text, so internal details are included;
a `stream_end` frame follows exactly when the stream was already open. -/
theorem C3_exception_frames (events : List StreamEvent) (e tid rid uin : String)
    (h : (runEvents rid tid uin events initMGSt).2.2 = none) :
    messageGenerator events (.raisedSource e) tid rid uin =
      (runEvents rid tid uin events initMGSt).1 ++
        (if (runEvents rid tid uin events initMGSt).2.1.flag then [errorM e]
         else [streamStartM, errorM e]) ++
        (if (runEvents rid tid uin events initMGSt).2.1.flag then [streamEndM tid] else []) ∧
    countType "error" (messageGenerator events (.raisedSource e) tid rid uin) =
      countType "error" (runEvents rid tid uin events initMGSt).1 + 1 := by
  rcases hr : runEvents rid tid uin events initMGSt with ⟨frames, st, err⟩
  rw [hr] at h
  simp only at h
  subst h
  constructor
  · unfold messageGenerator
    rw [hr]
    cases hf : st.flag <;> simp [exceptChunk, finallyChunk, hf]
  · unfold messageGenerator
    rw [hr]
    cases hf : st.flag <;>
      simp [exceptChunk, finallyChunk, hf, countType, streamStartM, streamEndM, errorM,
        List.filter_append]

/-- Claim C3, witness: the amended statement at the empty event list. -/
theorem C3_exception_frames_witness :
    messageGenerator [] (.raisedSource "boom") "t" "r" "m" =
      (runEvents "r" "t" "m" [] initMGSt).1 ++
        (if (runEvents "r" "t" "m" [] initMGSt).2.1.flag then [errorM "boom"]
         else [streamStartM, errorM "boom"]) ++
        (if (runEvents "r" "t" "m" [] initMGSt).2.1.flag then [streamEndM "t"] else []) ∧
    countType "error" (messageGenerator [] (.raisedSource "boom") "t" "r" "m") =
      countType "error" (runEvents "r" "t" "m" [] initMGSt).1 + 1 :=
  C3_exception_frames [] "boom" "t" "r" "m" rfl

/-! ## Claim C10 — state persisting between runs -/

/-- Claim C10, counterexample: after one completed run on thread `"t"`, a
second run with the identical request on the same thread feeds the agent a
different message sequence than a run against the fresh process-wide saver —
the module-level `InMemorySaver` of Agent_AI.py persists conversation
history between runs. -/
theorem C10_counterexample :
    agentMessagesSeen
        (runOnce (fun _ => .ai (.s "ok") []) checkpointerInit "t" "hi") "t" "hi" ≠
      agentMessagesSeen checkpointerInit "t" "hi" := by
  decide

/-- Claim C10, amended: the checkpointed history of a thread grows with each
run on that thread (the request message and the reply are persisted), runs
on a different thread leave it untouched, and a run on a thread with empty
stored history sees only its own request message. -/
theorem C10_thread_isolation (cp : SaverState) (reply : List LCMessage → LCMessage)
    (tid tid2 msg msg2 : String) :
    saverHistory (runOnce reply cp tid msg) tid =
      saverHistory cp tid ++ [.human (.s msg), reply (agentMessagesSeen cp tid msg)] ∧
    (tid2 ≠ tid → saverHistory (runOnce reply cp tid2 msg2) tid = saverHistory cp tid) ∧
    (saverHistory cp tid = [] → agentMessagesSeen cp tid msg = [.human (.s msg)]) := by
  refine ⟨?_, ?_, ?_⟩
  · rw [runOnce, saverHistory_store_self, agentMessagesSeen]
    simp
  · intro h
    exact saverHistory_store_other cp tid tid2 _ h
  · intro h
    rw [agentMessagesSeen, h]
    simp

/-- Claim C10, witness: the amended statement at the fresh saver, threads
`"t"` and `"u"`. -/
theorem C10_thread_isolation_witness :
    saverHistory (runOnce (fun _ => .ai (.s "ok") []) checkpointerInit "t" "hi") "t" =
      saverHistory checkpointerInit "t" ++
        [.human (.s "hi"),
         (fun _ => LCMessage.ai (.s "ok") []) (agentMessagesSeen checkpointerInit "t" "hi")] ∧
    saverHistory (runOnce (fun _ => .ai (.s "ok") []) checkpointerInit "u" "hi") "t" =
      saverHistory checkpointerInit "t" ∧
    agentMessagesSeen checkpointerInit "t" "hi" = [.human (.s "hi")] :=
  ⟨(C10_thread_isolation checkpointerInit (fun _ => .ai (.s "ok") []) "t" "u" "hi" "hi").1,
   (C10_thread_isolation checkpointerInit (fun _ => .ai (.s "ok") []) "t" "u" "hi" "hi").2.1
     (by decide),
   (C10_thread_isolation checkpointerInit (fun _ => .ai (.s "ok") []) "t" "u" "hi" "hi").2.2
     rfl⟩

end AgentAI
